import Mathlib

/-!
# Matrix.cpp: a shallow embedding and its verification

The C++ class `Matrix` (file `C++/Projects/Matrix/Matrix.cpp`) is embedded as
the structure `Cpp.Matrix K`.

* The `double` entries are abstracted to an exact number type `K` (a ring; a
  field where `inverse` divides), so rounding is not modelled.
* The operators ask of `K` only the operations they use, so they also run on
  `Dbl`, the `double` values with the infinities and NaN (finite values exact).
* `compoundCall` shows a compound operator on both objects of the call, with
  the case that the right operand is `*this` itself.
* The heap buffer `double** values` is a list of rows; the loops that fill it
  are folds that thread the buffer, one write per iteration as in the source.
* The `int` fields `rows`, `cols` and the `int` parameters are `Int`.  No
  arithmetic on them comes near the 32-bit range for a buffer that fits in
  memory, so wrap-around is not modelled.
* A `throw` is an `error` result of `Except Failure`.
* The recursion `determinant -> cofactor -> minorM -> determinant` is bounded by
  a fuel argument; `determinant` starts it with `rows + 1`, which is never used
  up (`Matrix.determinant_ne_fuel`).
* `operator=` and the compound operators change `*this`; they are functions
  from the old state to the new state and the way the call ended.  The pointer
  test `this == &right` of `operator=` and `operator==` is a Boolean argument.
* `Matrix.WF` is the class invariant that every constructor establishes:
  `rows >= 1`, `cols >= 1` and a buffer of `rows` rows of `cols` elements.
  The theorems are about matrices that satisfy it.
-/

/-- The linear-algebra matrix type of the library, under a name that stays
usable next to the embedded C++ class. -/
abbrev LinMatrix (m n : Type) (K : Type) := Matrix m n K

namespace Cpp

/-- What a call can end with other than a value.  `outOfBounds` and
`invalidDimensions` are the exception classes `OutOfBounds` and
`InvalidDimensions`; `allocMessage` is the string literal
`"Invalid allocation dimensions"` that `alloc2D` throws (a `const char*`, not an
`InvalidDimensions` object); `fuel` is not a C++ outcome: it marks that the
recursion bound of `determinantFuel` was used up. -/
inductive Failure where
  | outOfBounds
  | invalidDimensions
  | allocMessage
  | fuel
  deriving DecidableEq, Repr

deriving instance DecidableEq for Except

/-- The buffer `double** values`: a list of rows. -/
abbrev Buf (K : Type) := List (List K)

/-- The raw read `values[i][j]`.  Outside the buffer the C++ read is undefined;
the model returns `0` there. -/
def rd {K : Type} [Zero K] (b : Buf K) (i j : Nat) : K :=
  (b.getD i []).getD j 0

/-- The raw write `values[i][j] = v`.  Outside the buffer the C++ write is
undefined; the model leaves the buffer as it is. -/
def wr {K : Type} (b : Buf K) (i j : Nat) (v : K) : Buf K :=
  b.set i ((b.getD i []).set j v)

/-- The function `alloc2D(r, c)`: throws the string literal when `r <= 0` or
`c <= 0`, else a fresh `r` by `c` buffer of zeros. -/
def alloc2D {K : Type} [Zero K] (r c : Int) : Except Failure (Buf K) :=
  if r ≤ 0 ∨ c ≤ 0 then .error .allocMessage
  else .ok (List.replicate r.toNat (List.replicate c.toNat 0))

/-- The loop nest `for (i = 0; i < rows; ++i) for (j = 0; j < cols; ++j) body`,
threading the buffer that the body updates. -/
def forIJ {K : Type} (rows cols : Int) (body : Buf K → Nat → Nat → Buf K)
    (init : Buf K) : Buf K :=
  (List.range rows.toNat).foldl
    (fun v i => (List.range cols.toNat).foldl (fun w j => body w i j) v) init

/-- The same loop nest with a body that can throw. -/
def forIJM {K : Type} (rows cols : Int)
    (body : Buf K → Nat → Nat → Except Failure (Buf K)) (init : Buf K) :
    Except Failure (Buf K) :=
  (List.range rows.toNat).foldlM
    (fun v i => (List.range cols.toNat).foldlM (fun w j => body w i j) v) init

/-- A buffer of exactly `R` rows of exactly `C` elements. -/
def Shaped {K : Type} (b : Buf K) (R C : Nat) : Prop :=
  b.length = R ∧ ∀ row ∈ b, row.length = C

instance instDecidableShaped {K : Type} (b : Buf K) (R C : Nat) : Decidable (Shaped b R C) :=
  inferInstanceAs (Decidable (b.length = R ∧ ∀ row ∈ b, row.length = C))

/-- The index pairs `(i, j)` in the order the loop nest visits them. -/
def pairs (R C : Nat) : List (Nat × Nat) :=
  (List.range R).flatMap fun i => (List.range C).map fun j => (i, j)

/-- The index in the original matrix of index `a` of the matrix with index `r`
deleted: `a + (1 if a >= r else 0)`. -/
def skip (r a : Nat) : Nat := a + if a ≥ r then 1 else 0

/-- The class `Matrix`: its data members `rows`, `cols` and `values`. -/
structure Matrix (K : Type) where
  rows : Int
  cols : Int
  values : Buf K
  deriving DecidableEq, Repr

namespace Matrix

variable {K : Type}

/-- The constructor `Matrix()`. -/
def mkDefault [Zero K] : Except Failure (Matrix K) :=
  match alloc2D 1 1 with
  | .error e => .error e
  | .ok v => .ok ⟨1, 1, v⟩

/-- The constructor `Matrix(double d)`. -/
def mkScalar [Zero K] (d : K) : Except Failure (Matrix K) :=
  match alloc2D 1 1 with
  | .error e => .error e
  | .ok v => .ok ⟨1, 1, wr v 0 0 d⟩

/-- The constructor `Matrix(int r, int c)`. -/
def mkZero [Zero K] (r c : Int) : Except Failure (Matrix K) :=
  match alloc2D r c with
  | .error e => .error e
  | .ok v => .ok ⟨r, c, v⟩

/-- The constructor `Matrix(int r, int c, double** v)`. -/
def mkFrom [Zero K] (r c : Int) (v : Buf K) : Except Failure (Matrix K) :=
  match alloc2D r c with
  | .error e => .error e
  | .ok vals => .ok ⟨r, c, forIJ r c (fun w i j => wr w i j (rd v i j)) vals⟩

/-- The copy constructor `Matrix(const Matrix& other)`. -/
def copy [Zero K] (other : Matrix K) : Except Failure (Matrix K) :=
  match alloc2D other.rows other.cols with
  | .error e => .error e
  | .ok vals =>
    .ok ⟨other.rows, other.cols,
      forIJ other.rows other.cols (fun w i j => wr w i j (rd other.values i j)) vals⟩

/-- The accessor `get(r, c)`. -/
def get [Zero K] (M : Matrix K) (r c : Int) : Except Failure K :=
  if r ≥ M.rows ∨ c ≥ M.cols ∨ r < 0 ∨ c < 0 then .error .outOfBounds
  else .ok (rd M.values r.toNat c.toNat)

/-- The operator `operator+(const Matrix& right)`. -/
def operatorAdd [Zero K] [Add K] (M right : Matrix K) : Except Failure (Matrix K) :=
  if M.rows ≠ right.rows ∨ M.cols ≠ right.cols then .error .invalidDimensions
  else
    match M.copy with
    | .error e => .error e
    | .ok result =>
      .ok { result with
        values := forIJ M.rows M.cols
          (fun w i j => wr w i j (rd w i j + rd right.values i j)) result.values }

/-- The operator `operator*(const Matrix& right)`. -/
def operatorMul [Zero K] [Add K] [Mul K] (M right : Matrix K) :
    Except Failure (Matrix K) :=
  if M.cols ≠ right.rows then .error .invalidDimensions
  else
    match mkZero M.rows right.cols with
    | .error e => .error e
    | .ok result =>
      .ok { result with
        values := forIJ M.rows right.cols
          (fun w i j => (List.range M.cols.toNat).foldl
            (fun u k => wr u i j (rd u i j + rd M.values i k * rd right.values k j)) w)
          result.values }

/-- The operator `operator*(double d)`. -/
def operatorMulScalar [Zero K] [Mul K] (M : Matrix K) (d : K) :
    Except Failure (Matrix K) :=
  match M.copy with
  | .error e => .error e
  | .ok result =>
    .ok { result with
      values := forIJ M.rows M.cols (fun w i j => wr w i j (rd w i j * d)) result.values }

/-- The operator `operator-(const Matrix& right)`, that is
`(*this) + (right * (-1))`. -/
def operatorSub [Zero K] [Add K] [Mul K] [One K] [Neg K] (M right : Matrix K) :
    Except Failure (Matrix K) :=
  match right.operatorMulScalar (-1) with
  | .error e => .error e
  | .ok negated => M.operatorAdd negated

/-- The method `transpose()`. -/
def transpose [Zero K] (M : Matrix K) : Except Failure (Matrix K) :=
  match mkZero M.cols M.rows with
  | .error e => .error e
  | .ok result =>
    .ok { result with
      values := forIJ M.rows M.cols (fun w i j => wr w j i (rd M.values i j))
        result.values }

/-- The method `square()`. -/
def square (M : Matrix K) : Except Failure Bool :=
  if M.rows < 0 ∨ M.cols < 0 then .error .outOfBounds
  else .ok (decide (M.rows = M.cols))

/-- The value of `pow(-1, e)` for an `int` exponent: `1` for even `e` and `-1`
for odd `e`, of either sign. -/
def powNegOne [Monoid K] [Neg K] (e : Int) : K := (-1) ^ e.natAbs

/-- The fill loop of `minorM(r, c)`: the state is the buffer of `m` and the
counters `mi`, `mj`. -/
def minorFill [Zero K] (M : Matrix K) (r c : Int) (init : Buf K) : Buf K × Nat × Nat :=
  (List.range M.rows.toNat).foldl
    (fun (st : Buf K × Nat × Nat) (i : Nat) =>
      if (i : Int) ≠ r then
        let inner := (List.range M.cols.toNat).foldl
          (fun (s : Buf K × Nat) (j : Nat) =>
            if (j : Int) ≠ c then (wr s.1 st.2.1 s.2 (rd M.values i j), s.2 + 1) else s)
          (st.1, st.2.2)
        (inner.1, st.2.1 + 1, 0)
      else st)
    (init, 0, 0)

/-- The body of `minorM(r, c)` up to its last line: the matrix `m` on which
`m.determinant()` is then called. -/
def minorMatrix [Zero K] (M : Matrix K) (r c : Int) : Except Failure (Matrix K) :=
  match M.square with
  | .error e => .error e
  | .ok false => .error .invalidDimensions
  | .ok true =>
    match mkZero (M.rows - 1) (M.cols - 1) with
    | .error e => .error e
    | .ok m => .ok { m with values := (minorFill M r c m.values).1 }

/-- The method `minorM(r, c)`, with the `determinant` it calls as a parameter. -/
def minorMWith [Zero K] (det : Matrix K → Except Failure K) (M : Matrix K) (r c : Int) :
    Except Failure K :=
  match M.minorMatrix r c with
  | .error e => .error e
  | .ok m => det m

/-- The method `cofactor(r, c)`, with the `determinant` that `minorM` calls as
a parameter. -/
def cofactorWith [Zero K] [Monoid K] [Neg K] (det : Matrix K → Except Failure K)
    (M : Matrix K) (r c : Int) : Except Failure K :=
  match M.square with
  | .error e => .error e
  | .ok false => .error .invalidDimensions
  | .ok true =>
    match minorMWith det M r c with
    | .error e => .error e
    | .ok mn => .ok (powNegOne (r + c) * mn)

/-- The method `determinant()` with a bound on the depth of the recursion
`determinant -> cofactor -> minorM -> determinant`. -/
def determinantFuel [Ring K] : Nat → Matrix K → Except Failure K
  | 0, _ => .error .fuel
  | fuel + 1, M =>
    match M.square with
    | .error e => .error e
    | .ok false => .error .invalidDimensions
    | .ok true =>
      if M.rows = 1 ∧ M.cols = 1 then .ok (rd M.values 0 0)
      else
        (List.range M.cols.toNat).foldlM
          (fun sum (i : Nat) =>
            match cofactorWith (determinantFuel fuel) M 0 (i : Int) with
            | .error e => .error e
            | .ok cf => .ok (sum + rd M.values 0 i * cf))
          0

/-- The method `determinant()`.  Each nested call is on a matrix that `alloc2D`
accepted with one row fewer, so `rows + 1` levels are never used up. -/
def determinant [Ring K] (M : Matrix K) : Except Failure K :=
  determinantFuel (M.rows.toNat + 1) M

/-- The method `minorM(r, c)`. -/
def minorM [Ring K] (M : Matrix K) (r c : Int) : Except Failure K :=
  minorMWith determinant M r c

/-- The method `cofactor(r, c)`. -/
def cofactor [Ring K] (M : Matrix K) (r c : Int) : Except Failure K :=
  cofactorWith determinant M r c

/-- The method `cofactor()` (whole matrix). -/
def cofactorMatrix [Ring K] (M : Matrix K) : Except Failure (Matrix K) :=
  match M.copy with
  | .error e => .error e
  | .ok result =>
    match forIJM M.rows M.cols
        (fun w (i j : Nat) =>
          match M.cofactor (i : Int) (j : Int) with
          | .error e => .error e
          | .ok cf => .ok (wr w i j cf))
        result.values with
    | .error e => .error e
    | .ok vals => .ok { result with values := vals }

/-- The method `adjoint()`. -/
def adjoint [Ring K] (M : Matrix K) : Except Failure (Matrix K) :=
  match M.cofactorMatrix with
  | .error e => .error e
  | .ok cf => cf.transpose

/-- The method `singular()`: `square() && determinant() == 0`, the right operand
evaluated only when the left one is true. -/
def singular [Ring K] [DecidableEq K] (M : Matrix K) : Except Failure Bool :=
  match M.square with
  | .error e => .error e
  | .ok false => .ok false
  | .ok true =>
    match M.determinant with
    | .error e => .error e
    | .ok d => .ok (decide (d = 0))

/-- The method `inverse()`. -/
def inverse [Field K] [DecidableEq K] (M : Matrix K) : Except Failure (Matrix K) :=
  match M.singular with
  | .error e => .error e
  | .ok true => .error .invalidDimensions
  | .ok false =>
    match M.adjoint with
    | .error e => .error e
    | .ok adj =>
      match adj.copy with
      | .error e => .error e
      | .ok m =>
        match M.determinant with
        | .error e => .error e
        | .ok d => m.operatorMulScalar (1 / d)

/-- The static method `identity(size)`. -/
def identity [Zero K] [One K] (size : Int) : Except Failure (Matrix K) :=
  match mkZero size size with
  | .error e => .error e
  | .ok result =>
    .ok { result with
      values := (List.range size.toNat).foldl (fun w i => wr w i i 1) result.values }

/-- The class invariant: at least one row and one column, and a buffer of
exactly `rows` rows of exactly `cols` elements. -/
def WF (M : Matrix K) : Prop :=
  1 ≤ M.rows ∧ 1 ≤ M.cols ∧ Shaped M.values M.rows.toNat M.cols.toNat

instance instDecidableWF (M : Matrix K) : Decidable M.WF :=
  inferInstanceAs
    (Decidable (1 ≤ M.rows ∧ 1 ≤ M.cols ∧ Shaped M.values M.rows.toNat M.cols.toNat))

/-- The matrix with row `r` and column `c` deleted and the remaining entries in
their relative order, as the specification words it:
`S[a][b] = M[a + (1 if a >= r else 0)][b + (1 if b >= c else 0)]`. -/
def deleteRowCol [Zero K] (M : Matrix K) (r c : Nat) : Matrix K :=
  ⟨M.rows - 1, M.cols - 1,
    (List.range (M.rows - 1).toNat).map fun a =>
      (List.range (M.cols - 1).toNat).map fun b => rd M.values (skip r a) (skip c b)⟩

/-- The entries of an `n` by `m` matrix of the class as a matrix of the
linear-algebra library. -/
def toLin [Zero K] (M : Matrix K) (n m : Nat) : LinMatrix (Fin n) (Fin m) K :=
  fun i j => rd M.values i j

/-- The operator `operator==(const Matrix& right)`.  `aliased` is the outcome of
the pointer test `this == &right`.  The loops compare over the shape of `*this`
only; `right` is read at the same indices whatever its shape. -/
def operatorEq [Zero K] [DecidableEq K] (M right : Matrix K) (aliased : Bool) : Bool :=
  if aliased then true
  else
    (List.range M.rows.toNat).all fun i =>
      (List.range M.cols.toNat).all fun j =>
        !(decide (rd M.values i j ≠ rd right.values i j))

/-- The operator `operator!=(const Matrix& right)`. -/
def operatorNe [Zero K] [DecidableEq K] (M right : Matrix K) (aliased : Bool) : Bool :=
  !(M.operatorEq right aliased)

/-- The operator `operator=(const Matrix& right)` as a state change: the new
state of `*this` and how the call ended.  `aliased` is the outcome of the
pointer test `this == &right`.  When `alloc2D` throws, `rows` and `cols` are
already overwritten and the old buffer is freed (the empty list). -/
def operatorAssign [Zero K] (self right : Matrix K) (aliased : Bool) :
    Matrix K × Except Failure Unit :=
  if aliased then (self, .ok ())
  else
    match alloc2D right.rows right.cols with
    | .error e => (⟨right.rows, right.cols, []⟩, .error e)
    | .ok vals =>
      (⟨right.rows, right.cols,
        forIJ right.rows right.cols (fun w i j => wr w i j (rd right.values i j)) vals⟩,
        .ok ())

/-- The operator `operator+=`, that is `(*this) = (*this) + right`: the sum is a
temporary, so the assignment is not a self-assignment; when the sum throws, the
assignment is not reached. -/
def operatorAddAssign [Zero K] [Add K] (self right : Matrix K) :
    Matrix K × Except Failure Unit :=
  match self.operatorAdd right with
  | .error e => (self, .error e)
  | .ok tmp => self.operatorAssign tmp false

/-- The operator `operator-=`, that is `(*this) = (*this) - right`. -/
def operatorSubAssign [Zero K] [Add K] [Mul K] [One K] [Neg K] (self right : Matrix K) :
    Matrix K × Except Failure Unit :=
  match self.operatorSub right with
  | .error e => (self, .error e)
  | .ok tmp => self.operatorAssign tmp false

/-- The operator `operator*=(const Matrix& right)`, that is
`(*this) = (*this) * right`. -/
def operatorMulAssign [Zero K] [Add K] [Mul K] (self right : Matrix K) :
    Matrix K × Except Failure Unit :=
  match self.operatorMul right with
  | .error e => (self, .error e)
  | .ok tmp => self.operatorAssign tmp false

/-- The operator `operator*=(double scalar)`, that is
`(*this) = (*this) * scalar`. -/
def operatorMulScalarAssign [Zero K] [Mul K] (self : Matrix K) (scalar : K) :
    Matrix K × Except Failure Unit :=
  match self.operatorMulScalar scalar with
  | .error e => (self, .error e)
  | .ok tmp => self.operatorAssign tmp false

/-- The writes `m.values[mi][mj] = v` that the fill loop of `minorM(r, c)`
performs, in the order it performs them: the loop of `minorFill` with the list
of writes `(mi, mj, v)` in place of the buffer. -/
def minorWrites [Zero K] (M : Matrix K) (r c : Int) : List (Nat × Nat × K) × Nat × Nat :=
  (List.range M.rows.toNat).foldl
    (fun (st : List (Nat × Nat × K) × Nat × Nat) (i : Nat) =>
      if (i : Int) ≠ r then
        let inner := (List.range M.cols.toNat).foldl
          (fun (s : List (Nat × Nat × K) × Nat) (j : Nat) =>
            if (j : Int) ≠ c then (s.1 ++ [(st.2.1, s.2, rd M.values i j)], s.2 + 1) else s)
          (st.1, st.2.2)
        (inner.1, st.2.1 + 1, 0)
      else st)
    ([], 0, 0)

/-- The Leibniz determinant of the `n` by `n` entries, as the claim words it:
the sum over the permutations `s` of `sign(s)` times the product over `i` of
`M[i][s(i)]`. -/
def leibniz [CommRing K] (M : Matrix K) (n : Nat) : K :=
  ∑ s : Equiv.Perm (Fin n),
    ((Equiv.Perm.sign s : ℤ) : K) * ∏ i : Fin n, rd M.values i.val (s i).val

/-- A call `m op= x` of a compound operator, seen on the two objects it
involves.  `op` is the operator as a state change of `*this`; `x` is read
through the const reference `right`, which refers to `m` itself when `aliased`
(as in `m += m`); the operator writes `*this` only.  The result is the state of
`m`, the state of the object that `right` refers to, and how the call ended. -/
def compoundCall (op : Matrix K → Matrix K → Matrix K × Except Failure Unit)
    (m x : Matrix K) (aliased : Bool) : Matrix K × Matrix K × Except Failure Unit :=
  let out := op m (if aliased then m else x)
  (out.1, if aliased then out.1 else x, out.2)

end Matrix

/-- The values of a `double` with the rounding and the sign of zero left out: a
finite number, the two infinities, and NaN. -/
inductive Dbl where
  | fin (q : ℚ)
  | pinf
  | ninf
  | nan
  deriving DecidableEq, Repr

namespace Dbl

/-- Neither an infinity nor NaN. -/
def isFinite : Dbl → Bool
  | fin _ => true
  | _ => false

/-- Addition of `double`: NaN absorbs, opposite infinities give NaN, an infinity
absorbs every finite number, finite numbers add. -/
def add : Dbl → Dbl → Dbl
  | nan, _ => nan
  | _, nan => nan
  | pinf, ninf => nan
  | ninf, pinf => nan
  | pinf, _ => pinf
  | _, pinf => pinf
  | ninf, _ => ninf
  | _, ninf => ninf
  | fin a, fin b => fin (a + b)

/-- An infinity times a finite number `q`: NaN for zero, else the infinity with
the sign of the product. -/
def infTimes (positive : Bool) (q : ℚ) : Dbl :=
  if q = 0 then nan else if decide (0 < q) = positive then pinf else ninf

/-- Multiplication of `double`: NaN absorbs, zero times an infinity is NaN, an
infinity times a number that is not zero is an infinity with the sign of the
product, finite numbers multiply. -/
def mul : Dbl → Dbl → Dbl
  | nan, _ => nan
  | _, nan => nan
  | pinf, pinf => pinf
  | ninf, ninf => pinf
  | pinf, ninf => ninf
  | ninf, pinf => ninf
  | pinf, fin q => infTimes true q
  | fin q, pinf => infTimes true q
  | ninf, fin q => infTimes false q
  | fin q, ninf => infTimes false q
  | fin a, fin b => fin (a * b)

instance : Zero Dbl := ⟨fin 0⟩

instance : One Dbl := ⟨fin 1⟩

instance : Add Dbl := ⟨add⟩

instance : Mul Dbl := ⟨mul⟩

end Dbl

/-- The matrix `[[inf, 0], [0, 1]]` of `double` values. -/
def withInfinity : Matrix Dbl := ⟨2, 2, [[.pinf, .fin 0], [.fin 0, .fin 1]]⟩

/-- The matrix `[[1, -2], [3, 4]]` of `double` values. -/
def finiteEntries : Matrix Dbl := ⟨2, 2, [[.fin 1, .fin (-2)], [.fin 3, .fin 4]]⟩

/-- The 1 by 1 matrix holding `1`. -/
def oneByOneUnit : Matrix ℚ := ⟨1, 1, [[1]]⟩

/-- A 2 by 2 matrix with two identical rows. -/
def repeatedRows : Matrix ℚ := ⟨2, 2, [[1, 2], [1, 2]]⟩

/-- The matrix that the driver `main` fills in: `[[1,2,3],[0,4,5],[1,0,6]]`. -/
def driverMatrix : Matrix ℚ := ⟨3, 3, [[1, 2, 3], [0, 4, 5], [1, 0, 6]]⟩

/-- The cofactor grid that the specification gives for the driver's matrix. -/
def driverCofactor : Matrix ℚ := ⟨3, 3, [[24, 5, -4], [-12, 3, 2], [-2, -5, 4]]⟩

/-- The matrix `[[1,2],[3,4]]` of the specification's inverse example. -/
def twoByTwo : Matrix ℚ := ⟨2, 2, [[1, 2], [3, 4]]⟩

/-- The inverse `[[-2,1],[1.5,-0.5]]` that the specification gives for it. -/
def twoByTwoInverse : Matrix ℚ := ⟨2, 2, [[-2, 1], [3 / 2, -1 / 2]]⟩

/-- A 2 by 3 matrix. -/
def twoByThree : Matrix ℚ := ⟨2, 3, [[1, 2, 3], [4, 5, 6]]⟩

/-- The 1 by 1 matrix holding `5`, what `Matrix(5.0)` constructs. -/
def oneByOne : Matrix ℚ := ⟨1, 1, [[5]]⟩

variable {K : Type}

/-! ## Buffers and loops -/

theorem Shaped.row_length {b : Buf K} {R C : Nat} (h : Shaped b R C) {i : Nat} (hi : i < R) :
    (b.getD i []).length = C := by
  obtain ⟨h1, h2⟩ := h
  subst h1
  rw [List.getD_eq_getElem _ _ hi]
  exact h2 _ (List.getElem_mem _)

theorem shaped_wr {b : Buf K} {R C : Nat} (h : Shaped b R C) (i j : Nat) (v : K) :
    Shaped (wr b i j v) R C := by
  obtain ⟨h1, h2⟩ := h
  refine ⟨by simp [wr, h1], ?_⟩
  intro row hrow
  rcases List.mem_or_eq_of_mem_set hrow with h | h
  · exact h2 _ h
  · subst h
    rw [List.length_set]
    by_cases hi : i < b.length
    · rw [List.getD_eq_getElem _ _ hi]; exact h2 _ (List.getElem_mem _)
    · unfold wr at hrow
      rw [List.set_eq_of_length_le (by omega)] at hrow
      rw [List.getD_eq_default _ _ (by omega)] at hrow ⊢
      rw [List.set_nil] at hrow
      exact h2 _ hrow

theorem rd_wr [Zero K] {b : Buf K} {R C : Nat} (h : Shaped b R C) {i j : Nat}
    (hi : i < R) (hj : j < C) (v : K) (a c : Nat) :
    rd (wr b i j v) a c = if a = i ∧ c = j then v else rd b a c := by
  have hrow := h.row_length hi
  obtain ⟨h1, h2⟩ := h
  subst h1
  unfold rd wr
  by_cases ha : a = i
  · subst ha
    simp only [List.getD_eq_getElem?_getD, List.getElem?_set_self hi, Option.getD_some, true_and]
    by_cases hc : c = j
    · subst hc
      rw [List.getElem?_set_self (by rw [← List.getD_eq_getElem?_getD]; omega)]
      simp
    · rw [List.getElem?_set_ne (Ne.symm hc)]
      simp [hc]
  · simp only [List.getD_eq_getElem?_getD, List.getElem?_set_ne (Ne.symm ha)]
    simp [ha]

theorem rd_wr_same [Zero K] {b : Buf K} {R C : Nat} (h : Shaped b R C) {i j : Nat}
    (hi : i < R) (hj : j < C) (v : K) : rd (wr b i j v) i j = v := by
  rw [rd_wr h hi hj]; simp

theorem wr_rd_self [Zero K] (b : Buf K) (i j : Nat) : wr b i j (rd b i j) = b := by
  unfold wr rd
  apply List.ext_getElem?
  intro n
  by_cases hn : n = i
  · subst hn
    by_cases hlen : n < b.length
    · rw [List.getElem?_set_self hlen, List.getD_eq_getElem _ _ hlen,
        List.getElem?_eq_getElem hlen]
      congr 1
      apply List.ext_getElem?
      intro m
      by_cases hm : m = j
      · subst hm
        by_cases hl2 : m < b[n].length
        · rw [List.getElem?_set_self hl2, List.getD_eq_getElem _ _ hl2,
            List.getElem?_eq_getElem hl2]
        · rw [List.set_eq_of_length_le (by omega)]
      · rw [List.getElem?_set_ne (Ne.symm hm)]
    · rw [List.set_eq_of_length_le (by omega)]
  · rw [List.getElem?_set_ne (Ne.symm hn)]

theorem buf_ext [Zero K] {b b' : Buf K} {R C : Nat} (h : Shaped b R C) (h' : Shaped b' R C)
    (hrd : ∀ i j, i < R → j < C → rd b i j = rd b' i j) : b = b' := by
  have hlen : b.length = b'.length := by rw [h.1, h'.1]
  apply List.ext_getElem hlen
  intro i hi hi'
  have hiR : i < R := by rw [← h.1]; exact hi
  have e1 := h.row_length hiR
  have e2 := h'.row_length hiR
  rw [List.getD_eq_getElem _ _ hi] at e1
  rw [List.getD_eq_getElem _ _ hi'] at e2
  apply List.ext_getElem (by rw [e1, e2])
  intro j hj hj'
  have := hrd i j hiR (by omega)
  unfold rd at this
  rw [List.getD_eq_getElem _ _ hi, List.getD_eq_getElem _ _ hi',
    List.getD_eq_getElem _ _ hj, List.getD_eq_getElem _ _ hj'] at this
  exact this

theorem shaped_replicate (R C : Nat) (x : K) :
    Shaped (List.replicate R (List.replicate C x)) R C := by
  refine ⟨by simp, ?_⟩
  intro row hrow
  rw [List.eq_of_mem_replicate hrow]; simp

theorem rd_replicate [Zero K] (R C i j : Nat) :
    rd (List.replicate R (List.replicate C (0 : K))) i j = 0 := by
  unfold rd
  simp only [List.getD_eq_getElem?_getD, List.getElem?_replicate]
  by_cases hi : i < R
  · simp only [hi, if_true, Option.getD_some, List.getElem?_replicate]
    by_cases hj : j < C <;> simp [hj]
  · simp [hi]

theorem foldl_cells [Zero K] {ι : Type} (pos : ι → Nat × Nat) (g : ι → K → K) {R C : Nat} :
    ∀ (ks : List ι) (v : Buf K), Shaped v R C →
      (∀ k ∈ ks, (pos k).1 < R ∧ (pos k).2 < C) →
      (ks.map pos).Nodup →
      Shaped (ks.foldl (fun w k => wr w (pos k).1 (pos k).2 (g k (rd w (pos k).1 (pos k).2))) v) R C ∧
      (∀ k ∈ ks, rd (ks.foldl (fun w k => wr w (pos k).1 (pos k).2 (g k (rd w (pos k).1 (pos k).2))) v)
          (pos k).1 (pos k).2 = g k (rd v (pos k).1 (pos k).2)) ∧
      (∀ a b, (a, b) ∉ ks.map pos →
        rd (ks.foldl (fun w k => wr w (pos k).1 (pos k).2 (g k (rd w (pos k).1 (pos k).2))) v) a b
          = rd v a b) := by
  intro ks
  induction ks with
  | nil =>
    intro v hv _ _
    exact ⟨hv, by simp, by simp⟩
  | cons k ks ih =>
    intro v hv hin hnd
    rw [List.map_cons, List.nodup_cons] at hnd
    obtain ⟨hk, hnd⟩ := hnd
    have hkin := hin k (List.mem_cons_self _ _)
    have hv1 : Shaped (wr v (pos k).1 (pos k).2 (g k (rd v (pos k).1 (pos k).2))) R C :=
      shaped_wr hv _ _ _
    obtain ⟨s1, s2, s3⟩ := ih _ hv1 (fun k' hk' => hin k' (List.mem_cons_of_mem _ hk')) hnd
    simp only [List.foldl_cons]
    refine ⟨s1, ?_, ?_⟩
    · intro k' hk'
      rcases List.mem_cons.mp hk' with h | h
      · subst h
        rw [s3 _ _ hk, rd_wr_same hv hkin.1 hkin.2]
      · rw [s2 k' h, rd_wr hv hkin.1 hkin.2]
        have hne : pos k' ≠ pos k := by
          intro e
          exact hk (e ▸ List.mem_map_of_mem pos h)
        have : ¬ ((pos k').1 = (pos k).1 ∧ (pos k').2 = (pos k).2) := by
          rintro ⟨e1, e2⟩
          exact hne (Prod.ext e1 e2)
        rw [if_neg this]
    · intro a b hab
      rw [List.map_cons, List.mem_cons, not_or] at hab
      rw [s3 a b hab.2, rd_wr hv hkin.1 hkin.2]
      have : ¬ (a = (pos k).1 ∧ b = (pos k).2) := by
        rintro ⟨e1, e2⟩
        exact hab.1 (Prod.ext e1 e2)
      rw [if_neg this]

theorem mem_pairs {R C : Nat} {p : Nat × Nat} : p ∈ pairs R C ↔ p.1 < R ∧ p.2 < C := by
  unfold pairs
  simp only [List.mem_flatMap, List.mem_range, List.mem_map]
  constructor
  · rintro ⟨i, hi, j, hj, rfl⟩; exact ⟨hi, hj⟩
  · rintro ⟨h1, h2⟩; exact ⟨p.1, h1, p.2, h2, rfl⟩

theorem nodup_pairs (R C : Nat) : (pairs R C).Nodup := by
  unfold pairs
  rw [List.nodup_flatMap]
  refine ⟨?_, ?_⟩
  · intro i _
    exact (List.nodup_range C).map (fun a b h => by simpa using h)
  · refine (List.nodup_range R).pairwise_of_forall_ne ?_
    intro i _ i' _ hne
    simp only [Function.onFun, List.disjoint_left, List.mem_map, List.mem_range]
    rintro p ⟨j, _, rfl⟩ ⟨j', _, h⟩
    exact hne (by simpa using (congrArg Prod.fst h).symm)

theorem foldl_flatMap_eq {α β γ : Type} (f : α → List β) (g : γ → β → γ) :
    ∀ (l : List α) (init : γ),
      (l.flatMap f).foldl g init = l.foldl (fun acc x => (f x).foldl g acc) init := by
  intro l
  induction l with
  | nil => intro init; rfl
  | cons a l ih =>
    intro init
    rw [List.flatMap_cons, List.foldl_append, ih, List.foldl_cons]

theorem forIJ_eq_foldl_pairs (rows cols : Int) (body : Buf K → Nat → Nat → Buf K)
    (init : Buf K) :
    forIJ rows cols body init
      = (pairs rows.toNat cols.toNat).foldl (fun w p => body w p.1 p.2) init := by
  unfold forIJ pairs
  rw [foldl_flatMap_eq]
  congr 1
  funext v i
  rw [List.foldl_map]

theorem forIJ_cells [Zero K] (p : Nat → Nat → Nat × Nat) (g : Nat → Nat → K → K)
    (rows cols : Int) {R C : Nat} (v : Buf K) (hv : Shaped v R C)
    (hin : ∀ i j, i < rows.toNat → j < cols.toNat → (p i j).1 < R ∧ (p i j).2 < C)
    (hinj : ∀ i j i' j', i < rows.toNat → j < cols.toNat → i' < rows.toNat → j' < cols.toNat →
      p i j = p i' j' → i = i' ∧ j = j') :
    Shaped (forIJ rows cols
        (fun w i j => wr w (p i j).1 (p i j).2 (g i j (rd w (p i j).1 (p i j).2))) v) R C ∧
    (∀ i j, i < rows.toNat → j < cols.toNat →
      rd (forIJ rows cols
        (fun w i j => wr w (p i j).1 (p i j).2 (g i j (rd w (p i j).1 (p i j).2))) v)
        (p i j).1 (p i j).2 = g i j (rd v (p i j).1 (p i j).2)) ∧
    (∀ a b, (∀ i j, i < rows.toNat → j < cols.toNat → p i j ≠ (a, b)) →
      rd (forIJ rows cols
        (fun w i j => wr w (p i j).1 (p i j).2 (g i j (rd w (p i j).1 (p i j).2))) v) a b
        = rd v a b) := by
  rw [forIJ_eq_foldl_pairs]
  have key := foldl_cells (fun q : Nat × Nat => p q.1 q.2) (fun q x => g q.1 q.2 x)
    (pairs rows.toNat cols.toNat) v hv
    (fun q hq => hin q.1 q.2 (mem_pairs.mp hq).1 (mem_pairs.mp hq).2)
    ((nodup_pairs _ _).map_on (by
      intro q hq q' hq' e
      have := hinj q.1 q.2 q'.1 q'.2 (mem_pairs.mp hq).1 (mem_pairs.mp hq).2
        (mem_pairs.mp hq').1 (mem_pairs.mp hq').2 e
      exact Prod.ext this.1 this.2))
  obtain ⟨k1, k2, k3⟩ := key
  refine ⟨k1, ?_, ?_⟩
  · intro i j hi hj
    exact k2 (i, j) (mem_pairs.mpr ⟨hi, hj⟩)
  · intro a b hab
    apply k3
    intro hmem
    obtain ⟨q, hq, e⟩ := List.mem_map.mp hmem
    exact hab q.1 q.2 (mem_pairs.mp hq).1 (mem_pairs.mp hq).2 e

theorem foldlM_ok {α β : Type} (f : β → α → Except Failure β) (g : β → α → β) :
    ∀ (l : List α) (init : β), (∀ a ∈ l, ∀ b, f b a = .ok (g b a)) →
      l.foldlM f init = .ok (l.foldl g init) := by
  intro l
  induction l with
  | nil => intro init _; rfl
  | cons a l ih =>
    intro init h
    rw [List.foldlM_cons, h a (List.mem_cons_self _ _)]
    exact ih _ (fun a' ha' => h a' (List.mem_cons_of_mem _ ha'))

theorem forIJM_ok (rows cols : Int) (body : Buf K → Nat → Nat → Except Failure (Buf K))
    (body' : Buf K → Nat → Nat → Buf K) (init : Buf K)
    (h : ∀ i j, i < rows.toNat → j < cols.toNat → ∀ w, body w i j = .ok (body' w i j)) :
    forIJM rows cols body init = .ok (forIJ rows cols body' init) := by
  unfold forIJM forIJ
  apply foldlM_ok
  intro i hi v
  apply foldlM_ok
  intro j hj w
  exact h i j (List.mem_range.mp hi) (List.mem_range.mp hj) w

theorem wr_wr (w : Buf K) (i j : Nat) (x y : K) : wr (wr w i j x) i j y = wr w i j y := by
  unfold wr
  by_cases hi : i < w.length
  · simp only [List.getD_eq_getElem?_getD, List.getElem?_set_self hi, Option.getD_some,
      List.set_set]
  · rw [List.set_eq_of_length_le (l := w) (by omega), List.set_eq_of_length_le (l := w) (by omega)]

theorem wr_oob (w : Buf K) (i j : Nat) (x : K)
    (h : ¬ (i < w.length ∧ j < (w.getD i []).length)) : wr w i j x = w := by
  unfold wr
  by_cases hi : i < w.length
  · have hj : (w.getD i []).length ≤ j := by
      by_contra hc
      exact h ⟨hi, by omega⟩
    rw [List.set_eq_of_length_le (l := w.getD i []) hj, List.getD_eq_getElem _ _ hi]
    apply List.ext_getElem?
    intro n
    by_cases hn : n = i
    · subst hn
      rw [List.getElem?_set_self hi, List.getElem?_eq_getElem hi]
    · rw [List.getElem?_set_ne (Ne.symm hn)]
  · exact List.set_eq_of_length_le (by omega)

theorem rd_wr_inb [Zero K] (w : Buf K) (i j : Nat) (x : K)
    (hi : i < w.length) (hj : j < (w.getD i []).length) : rd (wr w i j x) i j = x := by
  unfold rd wr
  simp only [List.getD_eq_getElem?_getD] at hj ⊢
  rw [List.getElem?_set_self hi, Option.getD_some, List.getElem?_set_self hj, Option.getD_some]

theorem foldl_wr_same [Zero K] [Add K] (i j : Nat) (t : Nat → K) :
    ∀ (ks : List Nat) (w : Buf K),
      ks.foldl (fun u k => wr u i j (rd u i j + t k)) w
        = wr w i j (ks.foldl (fun acc k => acc + t k) (rd w i j)) := by
  intro ks
  induction ks with
  | nil => intro w; exact (wr_rd_self w i j).symm
  | cons k ks ih =>
    intro w
    rw [List.foldl_cons, List.foldl_cons, ih, wr_wr]
    by_cases h : i < w.length ∧ j < (w.getD i []).length
    · rw [rd_wr_inb w i j _ h.1 h.2]
    · rw [wr_oob w i j _ h, wr_oob w i j _ h]

theorem foldl_add_eq_sum [AddCommMonoid K] (t : Nat → K) (x : K) (n : Nat) :
    (List.range n).foldl (fun acc k => acc + t k) x = x + ∑ k in Finset.range n, t k := by
  induction n with
  | zero => simp
  | succ n ih =>
    rw [List.range_succ, List.foldl_append, ih, Finset.sum_range_succ]
    simp [add_assoc]

/-! ## Constructors and operators -/

theorem alloc2D_ok [Zero K] {r c : Int} (hr : 1 ≤ r) (hc : 1 ≤ c) :
    (alloc2D r c : Except Failure (Buf K))
      = .ok (List.replicate r.toNat (List.replicate c.toNat 0)) := by
  unfold alloc2D
  rw [if_neg (by omega)]

theorem alloc2D_err [Zero K] {r c : Int} (h : r ≤ 0 ∨ c ≤ 0) :
    (alloc2D r c : Except Failure (Buf K)) = .error .allocMessage := by
  unfold alloc2D
  rw [if_pos h]

theorem Matrix.mkZero_ok [Zero K] {r c : Int} (hr : 1 ≤ r) (hc : 1 ≤ c) :
    (Matrix.mkZero r c : Except Failure (Matrix K))
      = .ok ⟨r, c, List.replicate r.toNat (List.replicate c.toNat 0)⟩ := by
  unfold Matrix.mkZero
  rw [alloc2D_ok hr hc]

theorem Matrix.ext_of_rd [Zero K] {M N : Matrix K} (hM : M.WF) (hN : N.WF)
    (hr : M.rows = N.rows) (hc : M.cols = N.cols)
    (h : ∀ i j, i < M.rows.toNat → j < M.cols.toNat → rd M.values i j = rd N.values i j) :
    M = N := by
  cases M with
  | mk r c v =>
    cases N with
    | mk r' c' v' =>
      simp only at hr hc h
      subst hr hc
      congr 1
      exact buf_ext hM.2.2 hN.2.2 h

theorem Matrix.copy_ok [Zero K] {M : Matrix K} (hM : M.WF) : M.copy = .ok M := by
  obtain ⟨h1, h2, h3⟩ := hM
  unfold Matrix.copy
  rw [alloc2D_ok h1 h2]
  have key := forIJ_cells (fun i j => (i, j)) (fun i j _ => rd M.values i j) M.rows M.cols
    (List.replicate M.rows.toNat (List.replicate M.cols.toNat (0 : K)))
    (shaped_replicate _ _ _) (fun i j hi hj => ⟨hi, hj⟩)
    (fun i j i' j' _ _ _ _ e => by simpa using e)
  obtain ⟨k1, k2, _⟩ := key
  simp only
  congr 1
  apply Matrix.ext_of_rd
  · exact ⟨h1, h2, k1⟩
  · exact ⟨h1, h2, h3⟩
  · rfl
  · rfl
  · intro i j hi hj
    exact k2 i j hi hj

theorem Matrix.operatorAdd_ok [Zero K] [Add K] {M N : Matrix K} (hM : M.WF)
    (hr : M.rows = N.rows) (hc : M.cols = N.cols) :
    ∃ R, M.operatorAdd N = .ok R ∧ R.WF ∧ R.rows = M.rows ∧ R.cols = M.cols ∧
      ∀ i j, i < M.rows.toNat → j < M.cols.toNat →
        rd R.values i j = rd M.values i j + rd N.values i j := by
  unfold Matrix.operatorAdd
  rw [if_neg (by simp [hr, hc]), Matrix.copy_ok hM]
  have key := forIJ_cells (fun i j => (i, j)) (fun i j x => x + rd N.values i j) M.rows M.cols
    M.values hM.2.2 (fun i j hi hj => ⟨hi, hj⟩) (fun i j i' j' _ _ _ _ e => by simpa using e)
  obtain ⟨k1, k2, _⟩ := key
  exact ⟨_, rfl, ⟨hM.1, hM.2.1, k1⟩, rfl, rfl, k2⟩

theorem Matrix.operatorMulScalar_ok [Zero K] [Mul K] {M : Matrix K} (hM : M.WF) (d : K) :
    ∃ R, M.operatorMulScalar d = .ok R ∧ R.WF ∧ R.rows = M.rows ∧ R.cols = M.cols ∧
      ∀ i j, i < M.rows.toNat → j < M.cols.toNat →
        rd R.values i j = rd M.values i j * d := by
  unfold Matrix.operatorMulScalar
  rw [Matrix.copy_ok hM]
  have key := forIJ_cells (fun i j => (i, j)) (fun _ _ x => x * d) M.rows M.cols
    M.values hM.2.2 (fun i j hi hj => ⟨hi, hj⟩) (fun i j i' j' _ _ _ _ e => by simpa using e)
  obtain ⟨k1, k2, _⟩ := key
  exact ⟨_, rfl, ⟨hM.1, hM.2.1, k1⟩, rfl, rfl, k2⟩

theorem Matrix.operatorMul_ok [Semiring K] {M N : Matrix K} (hM : M.WF) (hN : N.WF)
    (h : M.cols = N.rows) :
    ∃ R, M.operatorMul N = .ok R ∧ R.WF ∧ R.rows = M.rows ∧ R.cols = N.cols ∧
      ∀ i j, i < M.rows.toNat → j < N.cols.toNat →
        rd R.values i j
          = ∑ k in Finset.range M.cols.toNat, rd M.values i k * rd N.values k j := by
  unfold Matrix.operatorMul
  rw [if_neg (by simp [h]), Matrix.mkZero_ok hM.1 hN.2.1]
  simp only [foldl_wr_same]
  have key := forIJ_cells (fun i j => (i, j))
    (fun i j x => (List.range M.cols.toNat).foldl
      (fun acc k => acc + rd M.values i k * rd N.values k j) x) M.rows N.cols
    (List.replicate M.rows.toNat (List.replicate N.cols.toNat (0 : K)))
    (shaped_replicate _ _ _) (fun i j hi hj => ⟨hi, hj⟩)
    (fun i j i' j' _ _ _ _ e => by simpa using e)
  obtain ⟨k1, k2, _⟩ := key
  refine ⟨_, rfl, ⟨hM.1, hN.2.1, k1⟩, rfl, rfl, ?_⟩
  intro i j hi hj
  have := k2 i j hi hj
  simp only at this
  rw [this, rd_replicate, foldl_add_eq_sum, zero_add]

theorem Matrix.transpose_ok [Zero K] {M : Matrix K} (hM : M.WF) :
    ∃ R, M.transpose = .ok R ∧ R.WF ∧ R.rows = M.cols ∧ R.cols = M.rows ∧
      ∀ i j, i < M.rows.toNat → j < M.cols.toNat → rd R.values j i = rd M.values i j := by
  unfold Matrix.transpose
  rw [Matrix.mkZero_ok hM.2.1 hM.1]
  have key := forIJ_cells (fun i j => (j, i)) (fun i j _ => rd M.values i j) M.rows M.cols
    (List.replicate M.cols.toNat (List.replicate M.rows.toNat (0 : K)))
    (shaped_replicate _ _ _) (fun i j hi hj => ⟨hj, hi⟩)
    (fun i j i' j' _ _ _ _ e => by
      simp only [Prod.mk.injEq] at e
      exact ⟨e.2, e.1⟩)
  obtain ⟨k1, k2, _⟩ := key
  exact ⟨_, rfl, ⟨hM.2.1, hM.1, k1⟩, rfl, rfl, k2⟩

theorem Matrix.identity_ok [Zero K] [One K] {size : Int} (h : 1 ≤ size) :
    ∃ R : Matrix K, Matrix.identity size = .ok R ∧ R.WF ∧ R.rows = size ∧ R.cols = size ∧
      ∀ i j, i < size.toNat → j < size.toNat →
        rd R.values i j = if i = j then 1 else 0 := by
  unfold Matrix.identity
  rw [Matrix.mkZero_ok h h]
  have key := foldl_cells (fun i : Nat => (i, i)) (fun _ (_ : K) => (1 : K))
    (List.range size.toNat)
    (List.replicate size.toNat (List.replicate size.toNat (0 : K)))
    (shaped_replicate _ _ _)
    (fun k hk => ⟨List.mem_range.mp hk, List.mem_range.mp hk⟩)
    ((List.nodup_range _).map (fun a b e => by simpa using congrArg Prod.fst e))
  obtain ⟨k1, k2, k3⟩ := key
  refine ⟨_, rfl, ⟨h, h, k1⟩, rfl, rfl, ?_⟩
  intro i j hi hj
  by_cases hij : i = j
  · subst hij
    rw [if_pos rfl]
    exact k2 i (List.mem_range.mpr hi)
  · rw [if_neg hij]
    have := k3 i j (by
      simp only [List.mem_map, List.mem_range, Prod.mk.injEq, not_exists, not_and]
      intro x _ hx1 hx2
      exact hij (hx1.symm.trans hx2))
    simp only at this
    rw [this, rd_replicate]

/-! ## The fill loop of `minorM` -/

theorem shaped_table (R C : Nat) (f : Nat → Nat → K) :
    Shaped ((List.range R).map fun a => (List.range C).map fun b => f a b) R C := by
  refine ⟨by simp, ?_⟩
  intro row hrow
  obtain ⟨a, _, rfl⟩ := List.mem_map.mp hrow
  simp

theorem rd_table [Zero K] (R C : Nat) (f : Nat → Nat → K) {a b : Nat} (ha : a < R) (hb : b < C) :
    rd ((List.range R).map fun a => (List.range C).map fun b => f a b) a b = f a b := by
  unfold rd
  simp [List.getD_eq_getElem?_getD, List.getElem?_map, List.getElem?_range, ha, hb]

theorem minorFill_inner [Zero K] (M : Matrix K) (i mi c : Nat) {R C : Nat}
    (hmi : mi < R) (hc : c ≤ C) (v : Buf K) (hv : Shaped v R C) :
    ∀ m, m ≤ C + 1 →
      ((List.range m).foldl
          (fun (s : Buf K × Nat) (j : Nat) =>
            if (j : Int) ≠ (c : Int) then (wr s.1 mi s.2 (rd M.values i j), s.2 + 1) else s)
          (v, 0)).2 = (if m ≤ c then m else m - 1) ∧
      Shaped ((List.range m).foldl
          (fun (s : Buf K × Nat) (j : Nat) =>
            if (j : Int) ≠ (c : Int) then (wr s.1 mi s.2 (rd M.values i j), s.2 + 1) else s)
          (v, 0)).1 R C ∧
      ∀ a b, rd ((List.range m).foldl
          (fun (s : Buf K × Nat) (j : Nat) =>
            if (j : Int) ≠ (c : Int) then (wr s.1 mi s.2 (rd M.values i j), s.2 + 1) else s)
          (v, 0)).1 a b
        = if a = mi ∧ b < (if m ≤ c then m else m - 1) then rd M.values i (skip c b)
          else rd v a b := by
  intro m
  induction m with
  | zero =>
    intro _
    refine ⟨by simp, by simpa using hv, ?_⟩
    intro a b
    simp
  | succ m ih =>
    intro hm
    obtain ⟨i1, i2, i3⟩ := ih (by omega)
    rw [List.range_succ, List.foldl_append, List.foldl_cons, List.foldl_nil]
    generalize (List.range m).foldl
          (fun (s : Buf K × Nat) (j : Nat) =>
            if (j : Int) ≠ (c : Int) then (wr s.1 mi s.2 (rd M.values i j), s.2 + 1) else s)
          (v, 0) = s at i1 i2 i3
    by_cases hmc : m = c
    · subst hmc
      rw [if_neg (by simp)]
      refine ⟨by rw [i1]; simp, i2, ?_⟩
      intro a b
      rw [i3]
      simp
    · have hne : ((m : Int) ≠ (c : Int)) := by exact_mod_cast hmc
      rw [if_pos hne]
      have hs2 : s.2 < C := by rw [i1]; split_ifs <;> omega
      refine ⟨?_, shaped_wr i2 _ _ _, ?_⟩
      · show s.2 + 1 = _
        rw [i1]; split_ifs <;> omega
      · intro a b
        show rd (wr s.1 mi s.2 (rd M.values i m)) a b = _
        rw [rd_wr i2 hmi hs2, i3, i1]
        have hskip : skip c (if m ≤ c then m else m - 1) = m := by
          unfold skip; split_ifs <;> omega
        by_cases ha : a = mi
        · by_cases hb : b = (if m ≤ c then m else m - 1)
          · rw [if_pos ⟨ha, hb⟩, if_pos ⟨ha, by rw [hb]; split_ifs <;> omega⟩, hb, hskip]
          · rw [if_neg (fun h => hb h.2)]
            by_cases hb2 : b < (if m ≤ c then m else m - 1)
            · rw [if_pos ⟨ha, hb2⟩, if_pos ⟨ha, by split_ifs at hb2 ⊢ <;> omega⟩]
            · rw [if_neg (fun h => hb2 h.2), if_neg (fun h => by
                have := h.2
                split_ifs at hb hb2 this <;> omega)]
        · rw [if_neg (fun h => ha h.1), if_neg (fun h => ha h.1), if_neg (fun h => ha h.1)]

theorem minorFill_outer [Zero K] (M : Matrix K) (r c : Nat) {C : Nat}
    (hcols : M.cols.toNat = C + 1) (hr : r ≤ C) (hc : c ≤ C)
    (init : Buf K) (hinit : Shaped init C C) :
    ∀ m, m ≤ C + 1 →
      ∃ buf : Buf K,
        (List.range m).foldl
          (fun (st : Buf K × Nat × Nat) (i : Nat) =>
            if (i : Int) ≠ (r : Int) then
              let inner := (List.range M.cols.toNat).foldl
                (fun (s : Buf K × Nat) (j : Nat) =>
                  if (j : Int) ≠ (c : Int) then
                    (wr s.1 st.2.1 s.2 (rd M.values i j), s.2 + 1) else s)
                (st.1, st.2.2)
              (inner.1, st.2.1 + 1, 0)
            else st)
          (init, 0, 0) = (buf, (if m ≤ r then m else m - 1), 0) ∧
        Shaped buf C C ∧
        ∀ a b, rd buf a b
          = if a < (if m ≤ r then m else m - 1) ∧ b < C
            then rd M.values (skip r a) (skip c b) else rd init a b := by
  intro m
  induction m with
  | zero =>
    intro _
    exact ⟨init, by simp, hinit, by simp⟩
  | succ m ih =>
    intro hm
    obtain ⟨buf, e, hs, hrd⟩ := ih (by omega)
    rw [List.range_succ, List.foldl_append, e, List.foldl_cons, List.foldl_nil]
    by_cases hmr : m = r
    · subst hmr
      rw [if_neg (by simp)]
      refine ⟨buf, by simp, hs, ?_⟩
      intro a b
      rw [hrd]
      simp
    · have hne : ((m : Int) ≠ (r : Int)) := by exact_mod_cast hmr
      rw [if_pos hne]
      have hmi : (if m ≤ r then m else m - 1) < C := by split_ifs <;> omega
      obtain ⟨j1, j2, j3⟩ := minorFill_inner M m (if m ≤ r then m else m - 1) c hmi hc buf hs
        (C + 1) (le_refl _)
      rw [hcols]
      refine ⟨_, ?_, j2, ?_⟩
      · simp only
        congr 2
        split_ifs <;> omega
      · intro a b
        rw [j3, hrd]
        have hskip : skip r (if m ≤ r then m else m - 1) = m := by
          unfold skip; split_ifs <;> omega
        have hC : (if C + 1 ≤ c then C + 1 else C + 1 - 1) = C := by
          rw [if_neg (by omega)]; omega
        rw [hC]
        by_cases hb : b < C
        · by_cases ha : a = (if m ≤ r then m else m - 1)
          · rw [if_pos ⟨ha, hb⟩, if_pos ⟨by rw [ha]; split_ifs <;> omega, hb⟩, ha, hskip]
          · rw [if_neg (fun h => ha h.1)]
            by_cases ha2 : a < (if m ≤ r then m else m - 1)
            · rw [if_pos ⟨ha2, hb⟩, if_pos ⟨by split_ifs at ha2 ⊢ <;> omega, hb⟩]
            · rw [if_neg (fun h => ha2 h.1), if_neg (fun h => by
                have := h.1
                split_ifs at ha ha2 this <;> omega)]
        · rw [if_neg (fun h => hb h.2), if_neg (fun h => hb h.2), if_neg (fun h => hb h.2)]

theorem minorFill_spec [Zero K] (M : Matrix K) (r c : Nat) {C : Nat}
    (hrows : M.rows.toNat = C + 1) (hcols : M.cols.toNat = C + 1) (hr : r ≤ C) (hc : c ≤ C)
    (init : Buf K) (hinit : Shaped init C C) :
    Shaped (Matrix.minorFill M (r : Int) (c : Int) init).1 C C ∧
    ∀ a b, a < C → b < C →
      rd (Matrix.minorFill M (r : Int) (c : Int) init).1 a b = rd M.values (skip r a) (skip c b) := by
  obtain ⟨buf, e, hs, hrd⟩ := minorFill_outer M r c hcols hr hc init hinit (C + 1) (le_refl _)
  have e' : Matrix.minorFill M (r : Int) (c : Int) init = (buf, (if C + 1 ≤ r then C + 1 else C + 1 - 1), 0) := by
    unfold Matrix.minorFill
    rw [hrows]
    exact e
  rw [e']
  refine ⟨hs, ?_⟩
  intro a b ha hb
  rw [hrd, if_pos ⟨by split_ifs <;> omega, hb⟩]

theorem Matrix.square_ok (M : Matrix K) (hM : M.WF) :
    M.square = .ok (decide (M.rows = M.cols)) := by
  unfold Matrix.square
  rw [if_neg (by have := hM.1; have := hM.2.1; omega)]

theorem Matrix.deleteRowCol_wf [Zero K] (M : Matrix K) (r c : Nat)
    (h1 : 2 ≤ M.rows) (h2 : 2 ≤ M.cols) : (M.deleteRowCol r c).WF :=
  ⟨by show 1 ≤ M.rows - 1; omega, by show 1 ≤ M.cols - 1; omega, shaped_table _ _ _⟩

theorem Matrix.minorMatrix_ok [Zero K] (M : Matrix K) (hM : M.WF) {n : Nat}
    (hrows : M.rows = n) (hcols : M.cols = n) (hn : 2 ≤ n) {r c : Nat} (hr : r < n)
    (hc : c < n) :
    M.minorMatrix (r : Int) (c : Int) = .ok (M.deleteRowCol r c) := by
  unfold Matrix.minorMatrix
  rw [Matrix.square_ok M hM, decide_eq_true (by rw [hrows, hcols])]
  simp only
  rw [Matrix.mkZero_ok (by omega) (by omega)]
  simp only
  obtain ⟨C, rfl⟩ : ∃ C, n = C + 1 := ⟨n - 1, by omega⟩
  have hR : (M.rows - 1).toNat = C := by omega
  have hC : (M.cols - 1).toNat = C := by omega
  have key := minorFill_spec M r c (by omega) (by omega) (by omega : r ≤ C) (by omega : c ≤ C)
    (List.replicate (M.rows - 1).toNat (List.replicate (M.cols - 1).toNat (0 : K)))
    (by rw [hR, hC]; exact shaped_replicate _ _ _)
  congr 1
  apply Matrix.ext_of_rd
  · exact ⟨by show 1 ≤ M.rows - 1; omega, by show 1 ≤ M.cols - 1; omega, by
      show Shaped _ (M.rows - 1).toNat (M.cols - 1).toNat
      have k := key.1
      rw [hR, hC] at k ⊢
      exact k⟩
  · exact Matrix.deleteRowCol_wf M r c (by omega) (by omega)
  · rfl
  · rfl
  · intro a b ha hb
    have ha' : a < C := by
      have : a < (M.rows - 1).toNat := ha
      omega
    have hb' : b < C := by
      have : b < (M.cols - 1).toNat := hb
      omega
    show rd (Matrix.minorFill M r c _).1 a b = rd (M.deleteRowCol r c).values a b
    rw [key.2 a b ha' hb']
    unfold Matrix.deleteRowCol
    rw [rd_table _ _ _ (by omega) (by omega)]

/-! ## The determinant and the library determinant -/

theorem foldlM_congr {α β : Type} (f g : β → α → Except Failure β) :
    ∀ (l : List α) (init : β), (∀ a ∈ l, ∀ b, f b a = g b a) →
      l.foldlM f init = l.foldlM g init := by
  intro l
  induction l with
  | nil => intro init _; rfl
  | cons a l ih =>
    intro init h
    rw [List.foldlM_cons, List.foldlM_cons, h a (List.mem_cons_self _ _)]
    congr 1
    funext b
    exact ih _ (fun a' ha' => h a' (List.mem_cons_of_mem _ ha'))

theorem Matrix.determinant_not_square [Ring K] (M : Matrix K) (hM : M.WF)
    (h : M.rows ≠ M.cols) : M.determinant = .error .invalidDimensions := by
  unfold Matrix.determinant Matrix.determinantFuel
  rw [Matrix.square_ok M hM, decide_eq_false h]

theorem Matrix.determinant_one_by_one [Ring K] (M : Matrix K) (hM : M.WF)
    (hr : M.rows = 1) (hc : M.cols = 1) : M.determinant = .ok (rd M.values 0 0) := by
  unfold Matrix.determinant Matrix.determinantFuel
  rw [Matrix.square_ok M hM, decide_eq_true (by rw [hr, hc])]
  simp only
  rw [if_pos ⟨hr, hc⟩]

theorem Matrix.cofactorWith_ok [Ring K] (det : Matrix K → Except Failure K) (M : Matrix K)
    (hM : M.WF) {n : Nat} (hrows : M.rows = n) (hcols : M.cols = n) (hn : 2 ≤ n)
    {r c : Nat} (hr : r < n) (hc : c < n) :
    Matrix.cofactorWith det M (r : Int) (c : Int)
      = match det (M.deleteRowCol r c) with
        | .error e => .error e
        | .ok mn => .ok (Matrix.powNegOne ((r : Int) + (c : Int)) * mn) := by
  unfold Matrix.cofactorWith Matrix.minorMWith
  rw [Matrix.square_ok M hM, decide_eq_true (by rw [hrows, hcols]),
    Matrix.minorMatrix_ok M hM hrows hcols hn hr hc]

theorem Matrix.determinant_rec [Ring K] (M : Matrix K) (hM : M.WF) {n : Nat}
    (hrows : M.rows = n) (hcols : M.cols = n) (hn : 2 ≤ n) :
    M.determinant
      = (List.range n).foldlM
          (fun sum (i : Nat) =>
            match (M.deleteRowCol 0 i).determinant with
            | .error e => .error e
            | .ok mn => .ok (sum + rd M.values 0 i * (Matrix.powNegOne ((0 : Int) + (i : Int)) * mn)))
          0 := by
  have hfuel : M.rows.toNat + 1 = (n - 1) + 1 + 1 := by omega
  unfold Matrix.determinant
  rw [hfuel, Matrix.determinantFuel, Matrix.square_ok M hM,
    decide_eq_true (by rw [hrows, hcols])]
  simp only
  rw [if_neg (by omega)]
  have hc : M.cols.toNat = n := by omega
  rw [hc]
  apply foldlM_congr
  intro i hi sum
  have hi' : i < n := List.mem_range.mp hi
  have := Matrix.cofactorWith_ok (Matrix.determinantFuel (n - 1 + 1)) M hM hrows hcols hn
    (by omega : 0 < n) hi'
  rw [Nat.cast_zero] at this
  rw [this]
  have hd : (M.deleteRowCol 0 i).rows.toNat + 1 = n - 1 + 1 := by
    show (M.rows - 1).toNat + 1 = n - 1 + 1
    omega
  rw [← hd]
  have e : Matrix.determinantFuel ((M.deleteRowCol 0 i).rows.toNat + 1) (M.deleteRowCol 0 i)
      = (M.deleteRowCol 0 i).determinant := rfl
  rw [e]
  cases (M.deleteRowCol 0 i).determinant <;> rfl

theorem skip_eq_succAbove {n : Nat} (r : Fin (n + 1)) (a : Fin n) :
    skip r.val a.val = (r.succAbove a).val := by
  unfold skip Fin.succAbove
  by_cases h : a.castSucc < r
  · rw [if_pos h]
    have : a.val < r.val := h
    simp only [Fin.coe_castSucc]
    rw [if_neg (by omega)]; rfl
  · rw [if_neg h]
    have : ¬ a.val < r.val := h
    simp only [Fin.val_succ]
    rw [if_pos (by omega)]

theorem Matrix.toLin_deleteRowCol [Zero K] (M : Matrix K) {n : Nat}
    (hrows : M.rows = (n + 1 : Nat)) (hcols : M.cols = (n + 1 : Nat)) (r c : Fin (n + 1)) :
    (M.deleteRowCol r.val c.val).toLin n n
      = (M.toLin (n + 1) (n + 1)).submatrix r.succAbove c.succAbove := by
  funext a b
  show rd (M.deleteRowCol r.val c.val).values a b = rd M.values (r.succAbove a) (c.succAbove b)
  unfold Matrix.deleteRowCol
  rw [rd_table _ _ _ (by have := a.isLt; omega) (by have := b.isLt; omega),
    skip_eq_succAbove, skip_eq_succAbove]

theorem powNegOne_cast [Ring K] (r c : Nat) :
    (Matrix.powNegOne ((r : Int) + (c : Int)) : K) = (-1) ^ (r + c) := by
  unfold Matrix.powNegOne
  congr 1

theorem Matrix.determinant_eq_det [CommRing K] :
    ∀ (n : Nat) (M : Matrix K), M.WF → M.rows = (n + 1 : Nat) → M.cols = (n + 1 : Nat) →
      M.determinant = .ok (Matrix.det (M.toLin (n + 1) (n + 1))) := by
  intro n
  induction n with
  | zero =>
    intro M hM hr hc
    rw [Matrix.determinant_one_by_one M hM (by simpa using hr) (by simpa using hc),
      Matrix.det_fin_one]
    rfl
  | succ k ih =>
    intro M hM hr hc
    rw [Matrix.determinant_rec M hM hr hc (by omega)]
    rw [foldlM_ok _ (fun sum i => sum + rd M.values 0 i *
        ((-1) ^ i * Matrix.det ((M.deleteRowCol 0 i).toLin (k + 1) (k + 1))))]
    · rw [foldl_add_eq_sum, zero_add, Matrix.det_succ_row_zero,
        ← Fin.sum_univ_eq_sum_range (fun i => rd M.values 0 i *
          ((-1) ^ i * Matrix.det ((M.deleteRowCol 0 i).toLin (k + 1) (k + 1))))]
      congr 1
      apply Finset.sum_congr rfl
      intro j _
      have := Matrix.toLin_deleteRowCol M hr hc 0 j
      rw [Fin.succAbove_zero] at this
      rw [← this]
      show rd M.values 0 j * _ = (-1) ^ (j : Nat) * rd M.values 0 j * _
      simp only [Fin.val_zero]
      ring
    · intro i hi sum
      have hi' : i < k + 1 + 1 := List.mem_range.mp hi
      have hd := Matrix.deleteRowCol_wf M 0 i (by omega) (by omega)
      rw [ih (M.deleteRowCol 0 i) hd (by show M.rows - 1 = _; omega)
        (by show M.cols - 1 = _; omega)]
      simp only
      have := powNegOne_cast (K := K) 0 i
      rw [Nat.cast_zero] at this
      rw [this, Nat.zero_add]

/-! ## Cofactors, adjoint and inverse -/

theorem Matrix.determinant_ok [CommRing K] (M : Matrix K) (hM : M.WF) {n : Nat}
    (hrows : M.rows = n) (hcols : M.cols = n) :
    M.determinant = .ok (Matrix.det (M.toLin n n)) := by
  obtain ⟨k, rfl⟩ : ∃ k, n = k + 1 := ⟨n - 1, by have := hM.1; omega⟩
  exact Matrix.determinant_eq_det k M hM hrows hcols

theorem Matrix.cofactor_ok [CommRing K] (M : Matrix K) (hM : M.WF) {n : Nat}
    (hrows : M.rows = n) (hcols : M.cols = n) (hn : 2 ≤ n) {r c : Nat} (hr : r < n)
    (hc : c < n) :
    M.cofactor (r : Int) (c : Int)
      = .ok ((-1) ^ (r + c) * Matrix.det ((M.deleteRowCol r c).toLin (n - 1) (n - 1))) := by
  unfold Matrix.cofactor
  rw [Matrix.cofactorWith_ok Matrix.determinant M hM hrows hcols hn hr hc,
    Matrix.determinant_ok (n := n - 1) (M.deleteRowCol r c)
      (Matrix.deleteRowCol_wf M r c (by omega) (by omega))
      (by show M.rows - 1 = _; omega) (by show M.cols - 1 = _; omega),
    powNegOne_cast]

theorem Matrix.minorM_ok [CommRing K] (M : Matrix K) (hM : M.WF) {n : Nat}
    (hrows : M.rows = n) (hcols : M.cols = n) (hn : 2 ≤ n) {r c : Nat} (hr : r < n)
    (hc : c < n) :
    M.minorM (r : Int) (c : Int)
      = .ok (Matrix.det ((M.deleteRowCol r c).toLin (n - 1) (n - 1))) := by
  unfold Matrix.minorM Matrix.minorMWith
  rw [Matrix.minorMatrix_ok M hM hrows hcols hn hr hc]
  exact Matrix.determinant_ok (n := n - 1) (M.deleteRowCol r c)
      (Matrix.deleteRowCol_wf M r c (by omega) (by omega))
      (by show M.rows - 1 = _; omega) (by show M.cols - 1 = _; omega)

theorem Matrix.cofactorMatrix_ok [CommRing K] (M : Matrix K) (hM : M.WF) {n : Nat}
    (hrows : M.rows = n) (hcols : M.cols = n) (hn : 2 ≤ n) :
    ∃ R, M.cofactorMatrix = .ok R ∧ R.WF ∧ R.rows = M.rows ∧ R.cols = M.cols ∧
      ∀ i j, i < n → j < n →
        rd R.values i j
          = (-1) ^ (i + j) * Matrix.det ((M.deleteRowCol i j).toLin (n - 1) (n - 1)) := by
  have hr : M.rows.toNat = n := by omega
  have hc : M.cols.toNat = n := by omega
  unfold Matrix.cofactorMatrix
  rw [Matrix.copy_ok hM]
  simp only
  rw [forIJM_ok M.rows M.cols _
    (fun w i j => wr w i j
      ((-1) ^ (i + j) * Matrix.det ((M.deleteRowCol i j).toLin (n - 1) (n - 1))))]
  · have key := forIJ_cells (fun i j => (i, j))
      (fun i j (_ : K) =>
        (-1) ^ (i + j) * Matrix.det ((M.deleteRowCol i j).toLin (n - 1) (n - 1)))
      M.rows M.cols M.values hM.2.2 (fun i j hi hj => ⟨hi, hj⟩)
      (fun i j i' j' _ _ _ _ e => by simpa using e)
    obtain ⟨k1, k2, _⟩ := key
    refine ⟨_, rfl, ⟨hM.1, hM.2.1, k1⟩, rfl, rfl, ?_⟩
    intro i j hi hj
    exact k2 i j (by omega) (by omega)
  · intro i j hi hj w
    rw [Matrix.cofactor_ok M hM hrows hcols hn (by omega : i < n) (by omega : j < n)]

theorem Matrix.adjoint_ok [CommRing K] (M : Matrix K) (hM : M.WF) {n : Nat}
    (hrows : M.rows = n) (hcols : M.cols = n) (hn : 2 ≤ n) :
    ∃ R, M.adjoint = .ok R ∧ R.WF ∧ R.rows = M.rows ∧ R.cols = M.cols ∧
      ∀ i j, i < n → j < n →
        rd R.values i j
          = (-1) ^ (j + i) * Matrix.det ((M.deleteRowCol j i).toLin (n - 1) (n - 1)) := by
  obtain ⟨C, e, hC, hCr, hCc, hCv⟩ := Matrix.cofactorMatrix_ok M hM hrows hcols hn
  obtain ⟨T, eT, hT, hTr, hTc, hTv⟩ := Matrix.transpose_ok hC
  unfold Matrix.adjoint
  rw [e]
  simp only
  refine ⟨T, eT, hT, by rw [hTr, hCc, hcols, hrows], by rw [hTc, hCr, hrows, hcols], ?_⟩
  intro i j hi hj
  rw [hTv j i (by omega) (by omega), hCv j i hj hi]

theorem Matrix.adjoint_toLin [CommRing K] (M : Matrix K) {k : Nat}
    (hrows : M.rows = (k + 2 : Nat)) (hcols : M.cols = (k + 2 : Nat)) (R : Matrix K)
    (hv : ∀ i j, i < k + 2 → j < k + 2 →
        rd R.values i j
          = (-1) ^ (j + i) * Matrix.det ((M.deleteRowCol j i).toLin (k + 2 - 1) (k + 2 - 1))) :
    R.toLin (k + 2) (k + 2) = Matrix.adjugate (M.toLin (k + 2) (k + 2)) := by
  funext i j
  rw [Matrix.adjugate_fin_succ_eq_det_submatrix,
    ← Matrix.toLin_deleteRowCol M hrows hcols j i]
  exact hv i j i.isLt j.isLt

theorem Matrix.singular_ok [CommRing K] [DecidableEq K] (M : Matrix K) (hM : M.WF) {n : Nat}
    (hrows : M.rows = n) (hcols : M.cols = n) :
    M.singular = .ok (decide (Matrix.det (M.toLin n n) = 0)) := by
  unfold Matrix.singular
  rw [Matrix.square_ok M hM, decide_eq_true (by rw [hrows, hcols])]
  simp only
  rw [Matrix.determinant_ok M hM hrows hcols]

theorem Matrix.inverse_singular [Field K] [DecidableEq K] (M : Matrix K) (hM : M.WF)
    {n : Nat} (hrows : M.rows = n) (hcols : M.cols = n)
    (hd : Matrix.det (M.toLin n n) = 0) : M.inverse = .error .invalidDimensions := by
  unfold Matrix.inverse
  rw [Matrix.singular_ok M hM hrows hcols, decide_eq_true hd]

theorem Matrix.inverse_ok [Field K] [DecidableEq K] (M : Matrix K) (hM : M.WF) {n : Nat}
    (hrows : M.rows = n) (hcols : M.cols = n) (hn : 2 ≤ n)
    (hd : Matrix.det (M.toLin n n) ≠ 0) :
    ∃ A R, M.adjoint = .ok A ∧ M.inverse = .ok R ∧ R.WF ∧ R.rows = M.rows ∧ R.cols = M.cols ∧
      ∀ i j, i < n → j < n →
        rd R.values i j = rd A.values i j * (1 / Matrix.det (M.toLin n n)) := by
  obtain ⟨A, eA, hA, hAr, hAc, hAv⟩ := Matrix.adjoint_ok M hM hrows hcols hn
  obtain ⟨R, eR, hR, hRr, hRc, hRv⟩ :=
    Matrix.operatorMulScalar_ok hA (1 / Matrix.det (M.toLin n n))
  refine ⟨A, R, eA, ?_, hR, by rw [hRr, hAr], by rw [hRc, hAc], ?_⟩
  · unfold Matrix.inverse
    rw [Matrix.singular_ok M hM hrows hcols, decide_eq_false hd]
    simp only
    rw [eA]
    simp only
    rw [Matrix.copy_ok hA]
    simp only
    rw [Matrix.determinant_ok M hM hrows hcols]
    exact eR
  · intro i j hi hj
    exact hRv i j (by omega) (by omega)

theorem sum_toLin_mul [Semiring K] (A B : Matrix K) (n : Nat) {i j : Nat} (hi : i < n)
    (hj : j < n) :
    ∑ k in Finset.range n, rd A.values i k * rd B.values k j
      = (A.toLin n n * B.toLin n n) ⟨i, hi⟩ ⟨j, hj⟩ := by
  rw [Matrix.mul_apply, ← Fin.sum_univ_eq_sum_range (fun k => rd A.values i k * rd B.values k j)]
  rfl

theorem Matrix.identity_toLin [Zero K] [One K] (I : Matrix K) (n : Nat)
    (h : ∀ i j, i < n → j < n → rd I.values i j = if i = j then 1 else 0) :
    I.toLin n n = 1 := by
  funext i j
  show rd I.values i j = _
  rw [h i j i.isLt j.isLt, Matrix.one_apply]
  by_cases e : i = j
  · rw [if_pos e, if_pos (congrArg Fin.val e)]
  · rw [if_neg e, if_neg (fun h => e (Fin.ext h))]

theorem Matrix.eq_of_toLin [Zero K] {M N : Matrix K} (hM : M.WF) (hN : N.WF) {n m : Nat}
    (hMr : M.rows = n) (hMc : M.cols = m) (hNr : N.rows = n) (hNc : N.cols = m)
    (h : M.toLin n m = N.toLin n m) : M = N := by
  apply Matrix.ext_of_rd hM hN (by rw [hMr, hNr]) (by rw [hMc, hNc])
  intro i j hi hj
  exact congrFun (congrFun h ⟨i, by omega⟩) ⟨j, by omega⟩

theorem Matrix.operatorMul_toLin [Semiring K] {M N : Matrix K} (hM : M.WF) (hN : N.WF)
    {n : Nat} (hMr : M.rows = n) (hMc : M.cols = n) (hNr : N.rows = n) (hNc : N.cols = n) :
    ∃ P, M.operatorMul N = .ok P ∧ P.WF ∧ P.rows = n ∧ P.cols = n ∧
      P.toLin n n = M.toLin n n * N.toLin n n := by
  obtain ⟨P, e, hP, hPr, hPc, hPv⟩ := Matrix.operatorMul_ok hM hN (by rw [hMc, hNr])
  refine ⟨P, e, hP, by rw [hPr, hMr], by rw [hPc, hNc], ?_⟩
  funext i j
  show rd P.values i j = _
  rw [hPv i j (by have := i.isLt; omega) (by have := j.isLt; omega)]
  have : M.cols.toNat = n := by omega
  rw [this]
  exact sum_toLin_mul M N n i.isLt j.isLt

theorem Matrix.minorMatrix_one_by_one [Zero K] (M : Matrix K) (hM : M.WF)
    (hr : M.rows = 1) (hc : M.cols = 1) (r c : Int) :
    M.minorMatrix r c = .error .allocMessage := by
  unfold Matrix.minorMatrix Matrix.mkZero
  rw [Matrix.square_ok M hM, decide_eq_true (by rw [hr, hc])]
  simp only
  rw [alloc2D_err (Or.inl (by omega))]

theorem Matrix.cofactorMatrix_one_by_one [Ring K] (M : Matrix K) (hM : M.WF)
    (hr : M.rows = 1) (hc : M.cols = 1) : M.cofactorMatrix = .error .allocMessage := by
  have hcf : M.cofactor ((0 : Nat) : Int) ((0 : Nat) : Int) = .error .allocMessage := by
    unfold Matrix.cofactor Matrix.cofactorWith Matrix.minorMWith
    rw [Matrix.square_ok M hM, decide_eq_true (by rw [hr, hc])]
    simp only
    rw [Matrix.minorMatrix_one_by_one M hM hr hc]
  unfold Matrix.cofactorMatrix forIJM
  rw [Matrix.copy_ok hM]
  simp only
  have h1 : M.rows.toNat = 1 := by omega
  have h2 : M.cols.toNat = 1 := by omega
  rw [h1, h2]
  have hrange : List.range 1 = [0] := rfl
  rw [hrange]
  simp only [List.foldlM_cons, List.foldlM_nil]
  rw [hcf]
  rfl

/-- On every 1 by 1 matrix whose element is not zero, `determinant()` returns the
element and `inverse()` ends with the string literal thrown by `alloc2D`. -/
theorem Matrix.inverse_one_by_one [Field K] [DecidableEq K] (M : Matrix K) (hM : M.WF)
    (hr : M.rows = 1) (hc : M.cols = 1) (hne : rd M.values 0 0 ≠ 0) :
    M.determinant = .ok (rd M.values 0 0) ∧ M.inverse = .error .allocMessage := by
  have hdet := Matrix.determinant_one_by_one M hM hr hc
  refine ⟨hdet, ?_⟩
  unfold Matrix.inverse Matrix.singular Matrix.adjoint
  rw [Matrix.square_ok M hM, decide_eq_true (by rw [hr, hc])]
  simp only
  rw [hdet]
  simp only
  rw [decide_eq_false hne]
  simp only
  rw [Matrix.cofactorMatrix_one_by_one M hM hr hc]

/-- The recursion bound of `determinantFuel` is never what `determinant()` ends
with on a matrix that satisfies the class invariant. -/
theorem Matrix.determinant_ne_fuel [CommRing K] (M : Matrix K) (hM : M.WF) :
    M.determinant ≠ .error .fuel := by
  by_cases h : M.rows = M.cols
  · have hrows : M.rows = (M.cols.toNat : Int) := by have := hM.2.1; omega
    have hcols : M.cols = (M.cols.toNat : Int) := by have := hM.2.1; omega
    rw [Matrix.determinant_ok M hM hrows hcols]
    exact fun e => Except.noConfusion e
  · rw [Matrix.determinant_not_square M hM h]
    intro e
    exact Failure.noConfusion (Except.error.inj e)

/-! ## Non-square matrices, the recursion depth and the writes of `minorM` -/

theorem Matrix.cofactorMatrix_not_square [Ring K] (M : Matrix K) (hM : M.WF)
    (h : M.rows ≠ M.cols) : M.cofactorMatrix = .error .invalidDimensions := by
  have hcf : M.cofactor ((0 : Nat) : Int) ((0 : Nat) : Int) = .error .invalidDimensions := by
    unfold Matrix.cofactor Matrix.cofactorWith
    rw [Matrix.square_ok M hM, decide_eq_false h]
  unfold Matrix.cofactorMatrix forIJM
  rw [Matrix.copy_ok hM]
  simp only
  obtain ⟨a, ha⟩ : ∃ a, M.rows.toNat = a + 1 := ⟨M.rows.toNat - 1, by have := hM.1; omega⟩
  obtain ⟨b, hb⟩ : ∃ b, M.cols.toNat = b + 1 := ⟨M.cols.toNat - 1, by have := hM.2.1; omega⟩
  rw [ha, hb, List.range_succ_eq_map a, List.range_succ_eq_map b]
  simp only [List.foldlM_cons]
  rw [hcf]
  rfl

theorem Matrix.singular_not_square [Ring K] [DecidableEq K] (M : Matrix K) (hM : M.WF)
    (h : M.rows ≠ M.cols) : M.singular = .ok false := by
  unfold Matrix.singular
  rw [Matrix.square_ok M hM, decide_eq_false h]

theorem Matrix.inverse_not_square [Field K] [DecidableEq K] (M : Matrix K) (hM : M.WF)
    (h : M.rows ≠ M.cols) : M.inverse = .error .invalidDimensions := by
  unfold Matrix.inverse Matrix.adjoint
  rw [Matrix.singular_not_square M hM h, Matrix.cofactorMatrix_not_square M hM h]

theorem Matrix.minorM_not_square [Ring K] (M : Matrix K) (hM : M.WF) (h : M.rows ≠ M.cols)
    (r c : Int) : M.minorM r c = .error .invalidDimensions := by
  unfold Matrix.minorM Matrix.minorMWith Matrix.minorMatrix
  rw [Matrix.square_ok M hM, decide_eq_false h]

theorem Matrix.leibniz_eq_det [CommRing K] (M : Matrix K) (n : Nat) :
    M.leibniz n = Matrix.det (M.toLin n n) := by
  rw [← Matrix.det_transpose, Matrix.det_apply']
  rfl

theorem Matrix.determinantFuel_rec [Ring K] (M : Matrix K) (hM : M.WF) {n : Nat}
    (hrows : M.rows = n) (hcols : M.cols = n) (hn : 2 ≤ n) (fuel : Nat) :
    Matrix.determinantFuel (fuel + 1) M
      = (List.range n).foldlM
          (fun sum (i : Nat) =>
            match Matrix.determinantFuel fuel (M.deleteRowCol 0 i) with
            | .error e => .error e
            | .ok mn => .ok (sum + rd M.values 0 i * (Matrix.powNegOne ((0 : Int) + (i : Int)) * mn)))
          0 := by
  rw [Matrix.determinantFuel, Matrix.square_ok M hM, decide_eq_true (by rw [hrows, hcols])]
  simp only
  rw [if_neg (by omega)]
  have hc : M.cols.toNat = n := by omega
  rw [hc]
  apply foldlM_congr
  intro i hi sum
  have hi' : i < n := List.mem_range.mp hi
  have := Matrix.cofactorWith_ok (Matrix.determinantFuel fuel) M hM hrows hcols hn
    (by omega : 0 < n) hi'
  rw [Nat.cast_zero] at this
  rw [this]
  cases Matrix.determinantFuel fuel (M.deleteRowCol 0 i) <;> rfl

theorem Matrix.determinantFuel_enough [Ring K] :
    ∀ (n : Nat) (M : Matrix K), M.WF → M.rows = (n + 1 : Nat) → M.cols = (n + 1 : Nat) →
      ∀ fuel, n + 1 ≤ fuel → Matrix.determinantFuel fuel M = M.determinant := by
  intro n
  induction n with
  | zero =>
    intro M hM hr hc fuel hf
    obtain ⟨f, rfl⟩ : ∃ f, fuel = f + 1 := ⟨fuel - 1, by omega⟩
    rw [Matrix.determinant_one_by_one M hM (by simpa using hr) (by simpa using hc),
      Matrix.determinantFuel, Matrix.square_ok M hM, decide_eq_true (by rw [hr, hc])]
    simp only
    rw [if_pos ⟨by simpa using hr, by simpa using hc⟩]
  | succ k ih =>
    intro M hM hr hc fuel hf
    obtain ⟨f, rfl⟩ : ∃ f, fuel = f + 1 := ⟨fuel - 1, by omega⟩
    rw [Matrix.determinantFuel_rec M hM hr hc (by omega) f,
      Matrix.determinant_rec M hM hr hc (by omega)]
    apply foldlM_congr
    intro i _ sum
    rw [ih (M.deleteRowCol 0 i) (Matrix.deleteRowCol_wf M 0 i (by omega) (by omega))
      (by show M.rows - 1 = _; omega) (by show M.cols - 1 = _; omega) f (by omega)]

theorem Matrix.determinantFuel_short [Ring K] :
    ∀ (fuel : Nat) (M : Matrix K) (n : Nat), M.WF → M.rows = n → M.cols = n → fuel < n →
      Matrix.determinantFuel fuel M = .error .fuel := by
  intro fuel
  induction fuel with
  | zero => intro M n _ _ _ _; rfl
  | succ f ih =>
    intro M n hM hr hc hf
    rw [Matrix.determinantFuel_rec M hM hr hc (by omega) f]
    obtain ⟨m, rfl⟩ : ∃ m, n = m + 1 := ⟨n - 1, by omega⟩
    rw [List.range_succ_eq_map, List.foldlM_cons,
      ih (M.deleteRowCol 0 0) m (Matrix.deleteRowCol_wf M 0 0 (by omega) (by omega))
        (by show M.rows - 1 = _; omega) (by show M.cols - 1 = _; omega) (by omega)]
    rfl

theorem pairs_succ (k C : Nat) :
    pairs (k + 1) C = pairs k C ++ (List.range C).map (fun b => (k, b)) := by
  unfold pairs
  rw [List.range_succ, List.flatMap_append]
  simp

theorem foldl_rel {α σ τ : Type} (R : σ → τ → Prop) (f : σ → α → σ) (g : τ → α → τ)
    (h : ∀ s t a, R s t → R (f s a) (g t a)) :
    ∀ (l : List α) (s : σ) (t : τ), R s t → R (l.foldl f s) (l.foldl g t) := by
  intro l
  induction l with
  | nil => intro s t hst; exact hst
  | cons a l ih => intro s t hst; exact ih _ _ (h s t a hst)

/-- The fill loop of `minorM` leaves the buffer that its writes, replayed in
order on the initial buffer, leave; for every `r` and `c`. -/
theorem minorFill_eq_replay [Zero K] (M : Matrix K) (r c : Int) (init : Buf K) :
    (Matrix.minorFill M r c init).1
      = (Matrix.minorWrites M r c).1.foldl (fun b w => wr b w.1 w.2.1 w.2.2) init := by
  have key := foldl_rel
    (fun (s : Buf K × Nat × Nat) (t : List (Nat × Nat × K) × Nat × Nat) =>
      s.1 = t.1.foldl (fun b w => wr b w.1 w.2.1 w.2.2) init ∧ s.2 = t.2)
    (fun (st : Buf K × Nat × Nat) (i : Nat) =>
      if (i : Int) ≠ r then
        let inner := (List.range M.cols.toNat).foldl
          (fun (s : Buf K × Nat) (j : Nat) =>
            if (j : Int) ≠ c then (wr s.1 st.2.1 s.2 (rd M.values i j), s.2 + 1) else s)
          (st.1, st.2.2)
        (inner.1, st.2.1 + 1, 0)
      else st)
    (fun (st : List (Nat × Nat × K) × Nat × Nat) (i : Nat) =>
      if (i : Int) ≠ r then
        let inner := (List.range M.cols.toNat).foldl
          (fun (s : List (Nat × Nat × K) × Nat) (j : Nat) =>
            if (j : Int) ≠ c then (s.1 ++ [(st.2.1, s.2, rd M.values i j)], s.2 + 1) else s)
          (st.1, st.2.2)
        (inner.1, st.2.1 + 1, 0)
      else st)
    (by
      intro s t i hst
      obtain ⟨h1, h2⟩ := hst
      by_cases hi : (i : Int) ≠ r
      · simp only [if_pos hi]
        have inner := foldl_rel
          (fun (u : Buf K × Nat) (v : List (Nat × Nat × K) × Nat) =>
            u.1 = v.1.foldl (fun b w => wr b w.1 w.2.1 w.2.2) init ∧ u.2 = v.2)
          (fun (u : Buf K × Nat) (j : Nat) =>
            if (j : Int) ≠ c then (wr u.1 s.2.1 u.2 (rd M.values i j), u.2 + 1) else u)
          (fun (v : List (Nat × Nat × K) × Nat) (j : Nat) =>
            if (j : Int) ≠ c then (v.1 ++ [(t.2.1, v.2, rd M.values i j)], v.2 + 1) else v)
          (by
            intro u v j huv
            obtain ⟨g1, g2⟩ := huv
            by_cases hj : (j : Int) ≠ c
            · simp only [if_pos hj]
              refine ⟨?_, by rw [g2]⟩
              rw [List.foldl_append, List.foldl_cons, List.foldl_nil, ← g1, g2, h2]
            · simp only [if_neg hj]
              exact ⟨g1, g2⟩)
          (List.range M.cols.toNat) (s.1, s.2.2) (t.1, t.2.2) ⟨h1, by rw [h2]⟩
        exact ⟨inner.1, by rw [h2]⟩
      · simp only [if_neg hi]
        exact ⟨h1, h2⟩)
    (List.range M.rows.toNat) (init, 0, 0) ([], 0, 0) ⟨rfl, rfl⟩
  exact key.1

theorem minorWrites_inner [Zero K] (M : Matrix K) (i mi c : Nat) {C : Nat} (hc : c ≤ C)
    (t0 : List (Nat × Nat × K)) :
    ∀ m, m ≤ C + 1 →
      (List.range m).foldl
          (fun (s : List (Nat × Nat × K) × Nat) (j : Nat) =>
            if (j : Int) ≠ (c : Int) then (s.1 ++ [(mi, s.2, rd M.values i j)], s.2 + 1)
            else s)
          (t0, 0)
        = (t0 ++ (List.range (if m ≤ c then m else m - 1)).map
              (fun b => (mi, b, rd M.values i (skip c b))),
            if m ≤ c then m else m - 1) := by
  intro m
  induction m with
  | zero => intro _; simp
  | succ m ih =>
    intro hm
    rw [List.range_succ, List.foldl_append, ih (by omega), List.foldl_cons, List.foldl_nil]
    by_cases hmc : m = c
    · subst hmc
      rw [if_neg (by simp)]
      simp
    · have hne : ((m : Int) ≠ (c : Int)) := by exact_mod_cast hmc
      rw [if_pos hne]
      have hskip : skip c (if m ≤ c then m else m - 1) = m := by
        unfold skip; split_ifs <;> omega
      have hcnt : (if m + 1 ≤ c then m + 1 else m + 1 - 1)
          = (if m ≤ c then m else m - 1) + 1 := by split_ifs <;> omega
      rw [hcnt, List.range_succ, List.map_append, List.map_cons, List.map_nil, hskip,
        List.append_assoc]

theorem minorWrites_outer [Zero K] (M : Matrix K) (r c : Nat) {C : Nat}
    (hcols : M.cols.toNat = C + 1) (hr : r ≤ C) (hc : c ≤ C) :
    ∀ m, m ≤ C + 1 →
      (List.range m).foldl
          (fun (st : List (Nat × Nat × K) × Nat × Nat) (i : Nat) =>
            if (i : Int) ≠ (r : Int) then
              let inner := (List.range M.cols.toNat).foldl
                (fun (s : List (Nat × Nat × K) × Nat) (j : Nat) =>
                  if (j : Int) ≠ (c : Int) then
                    (s.1 ++ [(st.2.1, s.2, rd M.values i j)], s.2 + 1) else s)
                (st.1, st.2.2)
              (inner.1, st.2.1 + 1, 0)
            else st)
          ([], 0, 0)
        = ((pairs (if m ≤ r then m else m - 1) C).map
              (fun p => (p.1, p.2, rd M.values (skip r p.1) (skip c p.2))),
            (if m ≤ r then m else m - 1), 0) := by
  intro m
  induction m with
  | zero => intro _; simp [pairs]
  | succ m ih =>
    intro hm
    rw [List.range_succ, List.foldl_append, ih (by omega), List.foldl_cons, List.foldl_nil]
    by_cases hmr : m = r
    · subst hmr
      rw [if_neg (by simp)]
      simp
    · have hne : ((m : Int) ≠ (r : Int)) := by exact_mod_cast hmr
      rw [if_pos hne]
      simp only
      rw [hcols, minorWrites_inner M m (if m ≤ r then m else m - 1) c hc _ (C + 1) (le_refl _)]
      have hskip : skip r (if m ≤ r then m else m - 1) = m := by
        unfold skip; split_ifs <;> omega
      have hcnt : (if m + 1 ≤ r then m + 1 else m + 1 - 1)
          = (if m ≤ r then m else m - 1) + 1 := by split_ifs <;> omega
      have hC : (if C + 1 ≤ c then C + 1 else C + 1 - 1) = C := by
        rw [if_neg (by omega)]; omega
      rw [hcnt, pairs_succ, List.map_append, List.map_map, hC]
      have hmap : (List.range C).map
            ((fun p : Nat × Nat => (p.1, p.2, rd M.values (skip r p.1) (skip c p.2))) ∘
              fun b => ((if m ≤ r then m else m - 1), b))
          = (List.range C).map
              (fun b => ((if m ≤ r then m else m - 1), b, rd M.values m (skip c b))) := by
        apply List.map_congr_left
        intro b _
        simp only [Function.comp_apply, hskip]
      rw [hmap]

theorem minorWrites_spec [Zero K] (M : Matrix K) (r c : Nat) {C : Nat}
    (hrows : M.rows.toNat = C + 1) (hcols : M.cols.toNat = C + 1) (hr : r ≤ C) (hc : c ≤ C) :
    (Matrix.minorWrites M (r : Int) (c : Int)).1
      = (pairs C C).map (fun p => (p.1, p.2, rd M.values (skip r p.1) (skip c p.2))) := by
  have h := minorWrites_outer M r c hcols hr hc (C + 1) (le_refl _)
  have hC : (if C + 1 ≤ r then C + 1 else C + 1 - 1) = C := by
    rw [if_neg (by omega)]; omega
  rw [hC] at h
  unfold Matrix.minorWrites
  rw [hrows]
  exact congrArg Prod.fst h

theorem length_pairs (R C : Nat) : (pairs R C).length = R * C := by
  induction R with
  | zero => simp [pairs]
  | succ k ih =>
    rw [pairs_succ, List.length_append, ih, List.length_map, List.length_range]
    ring

theorem Matrix.mkZero_wf [Zero K] {r c : Int} {M : Matrix K}
    (h : Matrix.mkZero r c = .ok M) :
    1 ≤ r ∧ 1 ≤ c ∧ M.WF ∧ M.rows = r ∧ M.cols = c ∧ ∀ i j, rd M.values i j = 0 := by
  by_cases hrc : r ≤ 0 ∨ c ≤ 0
  · unfold Matrix.mkZero at h
    rw [alloc2D_err hrc] at h
    exact Except.noConfusion h
  · have hr : 1 ≤ r := by omega
    have hc : 1 ≤ c := by omega
    rw [Matrix.mkZero_ok hr hc] at h
    have := Except.ok.inj h
    subst this
    exact ⟨hr, hc, ⟨hr, hc, shaped_replicate _ _ _⟩, rfl, rfl, fun i j => rd_replicate _ _ i j⟩

theorem Matrix.mkZero_err [Zero K] {r c : Int} (h : r ≤ 0 ∨ c ≤ 0) :
    (Matrix.mkZero r c : Except Failure (Matrix K)) = .error .allocMessage := by
  unfold Matrix.mkZero
  rw [alloc2D_err h]

theorem Matrix.identity_err [Zero K] [One K] {size : Int} (h : size ≤ 0) :
    (Matrix.identity size : Except Failure (Matrix K)) = .error .allocMessage := by
  unfold Matrix.identity
  rw [Matrix.mkZero_err (Or.inl h)]

theorem Matrix.get_ok [Zero K] (M : Matrix K) {i j : Int} (hi0 : 0 ≤ i) (hi : i < M.rows)
    (hj0 : 0 ≤ j) (hj : j < M.cols) : M.get i j = .ok (rd M.values i.toNat j.toNat) := by
  unfold Matrix.get
  rw [if_neg (by omega)]

theorem Matrix.mkDefault_wf [Zero K] {M : Matrix K} (h : Matrix.mkDefault = .ok M) :
    M.WF := by
  unfold Matrix.mkDefault at h
  rw [alloc2D_ok (le_refl _) (le_refl _)] at h
  have := Except.ok.inj h
  subst this
  exact ⟨le_refl _, le_refl _, shaped_replicate _ _ _⟩

theorem Matrix.mkScalar_wf [Zero K] {d : K} {M : Matrix K} (h : Matrix.mkScalar d = .ok M) :
    M.WF := by
  unfold Matrix.mkScalar at h
  rw [alloc2D_ok (le_refl _) (le_refl _)] at h
  have := Except.ok.inj h
  subst this
  exact ⟨le_refl _, le_refl _, shaped_wr (shaped_replicate _ _ _) _ _ _⟩

theorem Matrix.mkFrom_wf [Zero K] {r c : Int} {v : Buf K} {M : Matrix K}
    (h : Matrix.mkFrom r c v = .ok M) : M.WF := by
  by_cases hrc : r ≤ 0 ∨ c ≤ 0
  · unfold Matrix.mkFrom at h
    rw [alloc2D_err hrc] at h
    exact Except.noConfusion h
  · have hr : 1 ≤ r := by omega
    have hc : 1 ≤ c := by omega
    unfold Matrix.mkFrom at h
    rw [alloc2D_ok hr hc] at h
    have := Except.ok.inj h
    subst this
    have key := forIJ_cells (fun i j => (i, j)) (fun i j _ => rd v i j) r c
      (List.replicate r.toNat (List.replicate c.toNat (0 : K)))
      (shaped_replicate _ _ _) (fun i j hi hj => ⟨hi, hj⟩)
      (fun i j i' j' _ _ _ _ e => by simpa using e)
    exact ⟨hr, hc, key.1⟩

theorem Matrix.copy_wf [Zero K] {other M : Matrix K} (h : other.copy = .ok M) : M.WF := by
  have := Matrix.mkFrom_wf (r := other.rows) (c := other.cols) (v := other.values) (M := M)
  exact this h

theorem Matrix.operatorAssign_ok [Zero K] (self : Matrix K) {right : Matrix K}
    (hR : right.WF) : self.operatorAssign right false = (right, .ok ()) := by
  have hcopy := Matrix.copy_ok hR
  unfold Matrix.copy at hcopy
  rw [alloc2D_ok hR.1 hR.2.1] at hcopy
  have e := Except.ok.inj hcopy
  unfold Matrix.operatorAssign
  rw [alloc2D_ok hR.1 hR.2.1]
  simp only [Bool.false_eq_true, if_false]
  rw [e]

theorem Matrix.operatorAdd_cases [Zero K] [Add K] {A : Matrix K} (hA : A.WF) (B : Matrix K) :
    A.operatorAdd B = .error .invalidDimensions ∨
      ∃ R, A.operatorAdd B = .ok R ∧ R.WF ∧ R.rows = A.rows ∧ R.cols = A.cols := by
  by_cases h : A.rows ≠ B.rows ∨ A.cols ≠ B.cols
  · left
    unfold Matrix.operatorAdd
    rw [if_pos h]
  · right
    rw [not_or, not_not, not_not] at h
    obtain ⟨R, e, hR, hr, hc, _⟩ := Matrix.operatorAdd_ok (N := B) hA h.1 h.2
    exact ⟨R, e, hR, hr, hc⟩

theorem Matrix.operatorMul_cases [Semiring K] {A B : Matrix K} (hA : A.WF) (hB : B.WF) :
    A.operatorMul B = .error .invalidDimensions ∨
      ∃ R, A.operatorMul B = .ok R ∧ R.WF ∧ R.rows = A.rows ∧ R.cols = B.cols := by
  by_cases h : A.cols ≠ B.rows
  · left
    unfold Matrix.operatorMul
    rw [if_pos h]
  · right
    rw [not_not] at h
    obtain ⟨R, e, hR, hr, hc, _⟩ := Matrix.operatorMul_ok hA hB h
    exact ⟨R, e, hR, hr, hc⟩

theorem Matrix.operatorSub_cases [Ring K] {A B : Matrix K} (hA : A.WF) (hB : B.WF) :
    A.operatorSub B = .error .invalidDimensions ∨
      ∃ R, A.operatorSub B = .ok R ∧ R.WF ∧ R.rows = A.rows ∧ R.cols = A.cols := by
  obtain ⟨N, e, _, _, _, _⟩ := Matrix.operatorMulScalar_ok hB (-1 : K)
  unfold Matrix.operatorSub
  rw [e]
  exact Matrix.operatorAdd_cases hA N

theorem Matrix.operatorEq_iff [Zero K] [DecidableEq K] (A B : Matrix K) :
    A.operatorEq B false = true ↔
      ∀ i j, i < A.rows.toNat → j < A.cols.toNat → rd A.values i j = rd B.values i j := by
  unfold Matrix.operatorEq
  simp only [Bool.false_eq_true, if_false, List.all_eq_true, List.mem_range, Bool.not_eq_true',
    decide_eq_false_iff_not, not_not]
  constructor <;> intro h i j hi hj <;> exact h i hi j hj

theorem Matrix.operatorEq_same_shape [Zero K] [DecidableEq K] {A B : Matrix K} (hA : A.WF)
    (hB : B.WF) (hr : A.rows = B.rows) (hc : A.cols = B.cols) :
    A.operatorEq B false = true ↔ A = B := by
  rw [Matrix.operatorEq_iff]
  constructor
  · intro h
    exact Matrix.ext_of_rd hA hB hr hc h
  · intro h i j _ _
    rw [h]

theorem ok_unique {α : Type} {x : Except Failure α} {a b : α} (h1 : x = .ok a)
    (h2 : x = .ok b) : a = b := by
  rw [h1] at h2
  exact Except.ok.inj h2

theorem Matrix.cofactorMatrix_wf [CommRing K] {M R : Matrix K} (hM : M.WF)
    (h : M.cofactorMatrix = .ok R) : R.WF ∧ R.rows = M.rows ∧ R.cols = M.cols := by
  by_cases hsq : M.rows = M.cols
  · by_cases h1 : M.rows = 1
    · rw [Matrix.cofactorMatrix_one_by_one M hM h1 (by rw [← hsq, h1])] at h
      exact Except.noConfusion h
    · have hrows : M.rows = (M.rows.toNat : Int) := by have := hM.1; omega
      have hcols : M.cols = (M.rows.toNat : Int) := by have := hM.1; omega
      obtain ⟨R', e, hR, hr, hc, _⟩ := Matrix.cofactorMatrix_ok M hM hrows hcols
        (by have := hM.1; omega)
      have := ok_unique e h
      subst this
      exact ⟨hR, hr, hc⟩
  · rw [Matrix.cofactorMatrix_not_square M hM hsq] at h
    exact Except.noConfusion h

theorem Matrix.transpose_wf [Zero K] {M R : Matrix K} (hM : M.WF)
    (h : M.transpose = .ok R) : R.WF := by
  obtain ⟨R', e, hR, _⟩ := Matrix.transpose_ok hM
  have := ok_unique e h
  subst this
  exact hR

theorem Matrix.adjoint_wf [CommRing K] {M R : Matrix K} (hM : M.WF)
    (h : M.adjoint = .ok R) : R.WF := by
  unfold Matrix.adjoint at h
  cases hc : M.cofactorMatrix with
  | error e => rw [hc] at h; exact Except.noConfusion h
  | ok C =>
    rw [hc] at h
    exact Matrix.transpose_wf (Matrix.cofactorMatrix_wf hM hc).1 h

theorem Matrix.operatorMulScalar_wf [Zero K] [Mul K] {M R : Matrix K} (hM : M.WF) {d : K}
    (h : M.operatorMulScalar d = .ok R) : R.WF := by
  obtain ⟨R', e, hR, _⟩ := Matrix.operatorMulScalar_ok hM d
  have := ok_unique e h
  subst this
  exact hR

theorem Matrix.inverse_wf [Field K] [DecidableEq K] {M R : Matrix K} (hM : M.WF)
    (h : M.inverse = .ok R) : R.WF := by
  unfold Matrix.inverse at h
  cases hs : M.singular with
  | error e => rw [hs] at h; exact Except.noConfusion h
  | ok b =>
    rw [hs] at h
    cases b with
    | true => exact Except.noConfusion h
    | false =>
      simp only at h
      cases ha : M.adjoint with
      | error e => rw [ha] at h; exact Except.noConfusion h
      | ok A =>
        rw [ha] at h
        simp only at h
        have hA := Matrix.adjoint_wf hM ha
        rw [Matrix.copy_ok hA] at h
        simp only at h
        cases hd : M.determinant with
        | error e => rw [hd] at h; exact Except.noConfusion h
        | ok d =>
          rw [hd] at h
          exact Matrix.operatorMulScalar_wf hA h

theorem Matrix.operatorAdd_wf [Zero K] [Add K] {A B R : Matrix K} (hA : A.WF)
    (h : A.operatorAdd B = .ok R) : R.WF := by
  rcases Matrix.operatorAdd_cases hA B with e | ⟨R', e, hR, _⟩
  · rw [e] at h; exact Except.noConfusion h
  · have := ok_unique e h
    subst this
    exact hR

theorem Matrix.operatorSub_wf [Ring K] {A B R : Matrix K} (hA : A.WF) (hB : B.WF)
    (h : A.operatorSub B = .ok R) : R.WF := by
  rcases Matrix.operatorSub_cases hA hB with e | ⟨R', e, hR, _⟩
  · rw [e] at h; exact Except.noConfusion h
  · have := ok_unique e h
    subst this
    exact hR

theorem Matrix.operatorMul_wf [Semiring K] {A B R : Matrix K} (hA : A.WF) (hB : B.WF)
    (h : A.operatorMul B = .ok R) : R.WF := by
  rcases Matrix.operatorMul_cases hA hB with e | ⟨R', e, hR, _⟩
  · rw [e] at h; exact Except.noConfusion h
  · have := ok_unique e h
    subst this
    exact hR

theorem Matrix.identity_wf [Zero K] [One K] {size : Int} {R : Matrix K}
    (h : Matrix.identity size = .ok R) : R.WF := by
  by_cases hs : size ≤ 0
  · rw [Matrix.identity_err hs] at h
    exact Except.noConfusion h
  · obtain ⟨R', e, hR, _⟩ := Matrix.identity_ok (K := K) (by omega : 1 ≤ size)
    have := ok_unique e h
    subst this
    exact hR

theorem Matrix.operatorAssign_wf [Zero K] {self right : Matrix K} (hs : self.WF)
    (hR : right.WF) (aliased : Bool) : (self.operatorAssign right aliased).1.WF := by
  cases aliased with
  | true =>
    unfold Matrix.operatorAssign
    simp only [if_true]
    exact hs
  | false =>
    rw [Matrix.operatorAssign_ok self hR]
    exact hR

theorem Matrix.operatorAddAssign_wf [Zero K] [Add K] {A B : Matrix K} (hA : A.WF) :
    (A.operatorAddAssign B).1.WF := by
  unfold Matrix.operatorAddAssign
  cases h : A.operatorAdd B with
  | error e => exact hA
  | ok R => exact Matrix.operatorAssign_wf hA (Matrix.operatorAdd_wf hA h) false

theorem Matrix.operatorSubAssign_wf [Ring K] {A B : Matrix K} (hA : A.WF) (hB : B.WF) :
    (A.operatorSubAssign B).1.WF := by
  unfold Matrix.operatorSubAssign
  cases h : A.operatorSub B with
  | error e => exact hA
  | ok R => exact Matrix.operatorAssign_wf hA (Matrix.operatorSub_wf hA hB h) false

theorem Matrix.operatorMulAssign_wf [Semiring K] {A B : Matrix K} (hA : A.WF) (hB : B.WF) :
    (A.operatorMulAssign B).1.WF := by
  unfold Matrix.operatorMulAssign
  cases h : A.operatorMul B with
  | error e => exact hA
  | ok R => exact Matrix.operatorAssign_wf hA (Matrix.operatorMul_wf hA hB h) false

theorem Matrix.operatorMulScalarAssign_wf [Zero K] [Mul K] {A : Matrix K} (hA : A.WF)
    (d : K) : (A.operatorMulScalarAssign d).1.WF := by
  unfold Matrix.operatorMulScalarAssign
  cases h : A.operatorMulScalar d with
  | error e => exact hA
  | ok R => exact Matrix.operatorAssign_wf hA (Matrix.operatorMulScalar_wf hA h) false

/-! ## Products with the identity, and the compound operators -/

theorem Matrix.operatorMul_fold_ok [Zero K] [Add K] [Mul K] {M N : Matrix K} (hM : M.WF)
    (hN : N.WF) (h : M.cols = N.rows) :
    ∃ R, M.operatorMul N = .ok R ∧ R.WF ∧ R.rows = M.rows ∧ R.cols = N.cols ∧
      ∀ i j, i < M.rows.toNat → j < N.cols.toNat →
        rd R.values i j
          = (List.range M.cols.toNat).foldl
              (fun acc k => acc + rd M.values i k * rd N.values k j) 0 := by
  unfold Matrix.operatorMul
  rw [if_neg (by simp [h]), Matrix.mkZero_ok hM.1 hN.2.1]
  simp only [foldl_wr_same]
  have key := forIJ_cells (fun i j => (i, j))
    (fun i j x => (List.range M.cols.toNat).foldl
      (fun acc k => acc + rd M.values i k * rd N.values k j) x) M.rows N.cols
    (List.replicate M.rows.toNat (List.replicate N.cols.toNat (0 : K)))
    (shaped_replicate _ _ _) (fun i j hi hj => ⟨hi, hj⟩)
    (fun i j i' j' _ _ _ _ e => by simpa using e)
  obtain ⟨k1, k2, _⟩ := key
  refine ⟨_, rfl, ⟨hM.1, hN.2.1, k1⟩, rfl, rfl, ?_⟩
  intro i j hi hj
  have := k2 i j hi hj
  simp only at this
  rw [this, rd_replicate]

theorem foldl_single_term [Zero K] [Add K] (t : Nat → K) (p : Nat) (v : K)
    (h00 : (0 : K) + 0 = 0) (h0v : 0 + v = v) (hv0 : v + 0 = v) (n : Nat)
    (ht : ∀ k, k < n → t k = if k = p then v else 0) :
    ∀ m, m ≤ n →
      (List.range m).foldl (fun acc k => acc + t k) 0 = if p < m then v else 0 := by
  intro m
  induction m with
  | zero => intro _; simp
  | succ m ih =>
    intro hm
    rw [List.range_succ, List.foldl_append, ih (by omega), List.foldl_cons, List.foldl_nil,
      ht m (by omega)]
    by_cases hmp : m = p
    · subst hmp
      rw [if_neg (by omega), if_pos rfl, if_pos (by omega), h0v]
    · rw [if_neg hmp]
      by_cases hlt : p < m
      · rw [if_pos hlt, if_pos (by omega), hv0]
      · rw [if_neg hlt, if_neg (by omega), h00]

theorem toNat_of_eq_cast {z : Int} {n : Nat} (h : z = (n : Int)) : z.toNat = n := by
  omega

/-- The product with `identity(n)` on either side returns `M`, for entries on
which `0` and `1` act as they do on finite numbers. -/
theorem Matrix.identity_mul_of_laws [Zero K] [One K] [Add K] [Mul K] (n : Nat) (hn : 1 ≤ n)
    (M : Matrix K) (hM : M.WF) (hrows : M.rows = n) (hcols : M.cols = n)
    (h00 : (0 : K) + 0 = 0)
    (hlaws : ∀ i j, i < n → j < n →
      0 * rd M.values i j = 0 ∧ rd M.values i j * 0 = 0 ∧
      1 * rd M.values i j = rd M.values i j ∧ rd M.values i j * 1 = rd M.values i j ∧
      0 + rd M.values i j = rd M.values i j ∧ rd M.values i j + 0 = rd M.values i j) :
    ∃ I, Matrix.identity (n : Int) = .ok I ∧
      I.operatorMul M = .ok M ∧ M.operatorMul I = .ok M := by
  have hn1 : (1 : Int) ≤ (n : Int) := by exact_mod_cast hn
  obtain ⟨I, eI, hI, hIr, hIc, hIv⟩ := Matrix.identity_ok (K := K) hn1
  obtain ⟨P, eP, hP, hPr, hPc, hPv⟩ :=
    Matrix.operatorMul_fold_ok hI hM (by rw [hIc, hrows])
  obtain ⟨Q, eQ, hQ, hQr, hQc, hQv⟩ :=
    Matrix.operatorMul_fold_ok hM hI (by rw [hcols, hIr])
  have hnn : ((n : Int)).toNat = n := toNat_of_eq_cast rfl
  rw [hnn] at hIv
  rw [toNat_of_eq_cast hIr, toNat_of_eq_cast hcols, toNat_of_eq_cast hIc] at hPv
  rw [toNat_of_eq_cast hrows, toNat_of_eq_cast hIc, toNat_of_eq_cast hcols] at hQv
  refine ⟨I, eI, ?_, ?_⟩
  · rw [eP]
    congr 1
    apply Matrix.ext_of_rd hP hM (by rw [hPr, hIr, hrows]) (by rw [hPc])
    intro i j hi hj
    rw [toNat_of_eq_cast (hPr.trans hIr)] at hi
    rw [toNat_of_eq_cast (hPc.trans hcols)] at hj
    rw [hPv i j hi hj]
    obtain ⟨_, _, _, _, l5, l6⟩ := hlaws i j hi hj
    have key := foldl_single_term (fun k => rd I.values i k * rd M.values k j) i
      (rd M.values i j) h00 l5 l6 n (by
        intro k hk
        show rd I.values i k * rd M.values k j = _
        rw [hIv i k hi hk]
        by_cases hki : k = i
        · subst hki
          rw [if_pos rfl, if_pos rfl, (hlaws k j hk hj).2.2.1]
        · rw [if_neg (fun e => hki e.symm), if_neg hki, (hlaws k j hk hj).1]) n (le_refl _)
    rw [key, if_pos hi]
  · rw [eQ]
    congr 1
    apply Matrix.ext_of_rd hQ hM (by rw [hQr]) (by rw [hQc, hIc, hcols])
    intro i j hi hj
    rw [toNat_of_eq_cast (hQr.trans hrows)] at hi
    rw [toNat_of_eq_cast (hQc.trans hIc)] at hj
    rw [hQv i j hi hj]
    obtain ⟨_, _, _, _, l5, l6⟩ := hlaws i j hi hj
    have key := foldl_single_term (fun k => rd M.values i k * rd I.values k j) j
      (rd M.values i j) h00 l5 l6 n (by
        intro k hk
        show rd M.values i k * rd I.values k j = _
        rw [hIv k j hk hj]
        by_cases hkj : k = j
        · subst hkj
          rw [if_pos rfl, if_pos rfl, (hlaws i k hi hk).2.2.2.1]
        · rw [if_neg hkj, if_neg hkj, (hlaws i k hi hk).2.1]) n (le_refl _)
    rw [key, if_pos hj]

theorem Dbl.finite_laws (x : Dbl) (h : x.isFinite = true) :
    0 * x = 0 ∧ x * 0 = 0 ∧ 1 * x = x ∧ x * 1 = x ∧ 0 + x = x ∧ x + 0 = x := by
  cases x with
  | fin q =>
    refine ⟨?_, ?_, ?_, ?_, ?_, ?_⟩
    · show Dbl.fin (0 * q) = Dbl.fin 0
      rw [zero_mul]
    · show Dbl.fin (q * 0) = Dbl.fin 0
      rw [mul_zero]
    · show Dbl.fin (1 * q) = Dbl.fin q
      rw [one_mul]
    · show Dbl.fin (q * 1) = Dbl.fin q
      rw [mul_one]
    · show Dbl.fin (0 + q) = Dbl.fin q
      rw [zero_add]
    · show Dbl.fin (q + 0) = Dbl.fin q
      rw [add_zero]
  | pinf => exact absurd h (by decide)
  | ninf => exact absurd h (by decide)
  | nan => exact absurd h (by decide)

theorem Dbl.zero_add_zero : (0 : Dbl) + 0 = 0 := by
  show Dbl.fin (0 + 0) = Dbl.fin 0
  rw [add_zero]

/-- With entries in a semiring, `identity(n) * M` and `M * identity(n)` both
return `M`, for every `n >= 1` and every `n` by `n` matrix that satisfies the
class invariant. -/
theorem Matrix.identity_mul_of_semiring [Semiring K] (n : Nat) (hn : 1 ≤ n) (M : Matrix K)
    (hM : M.WF) (hrows : M.rows = n) (hcols : M.cols = n) :
    ∃ I, Matrix.identity (n : Int) = .ok I ∧
      I.operatorMul M = .ok M ∧ M.operatorMul I = .ok M := by
  obtain ⟨I, eI, hI, hIr, hIc, hIv⟩ :=
    Matrix.identity_ok (K := K) (by omega : (1 : Int) ≤ (n : Int))
  have hlin : I.toLin n n = 1 :=
    Matrix.identity_toLin I n (fun i j hi hj => hIv i j (by omega) (by omega))
  obtain ⟨P, eP, hP, hPr, hPc, hPv⟩ := Matrix.operatorMul_toLin hI hM hIr hIc hrows hcols
  obtain ⟨Q, eQ, hQ, hQr, hQc, hQv⟩ := Matrix.operatorMul_toLin hM hI hrows hcols hIr hIc
  refine ⟨I, eI, ?_, ?_⟩
  · rw [eP]
    congr 1
    apply Matrix.eq_of_toLin hP hM hPr hPc hrows hcols
    rw [hPv, hlin, one_mul]
  · rw [eQ]
    congr 1
    apply Matrix.eq_of_toLin hQ hM hQr hQc hrows hcols
    rw [hQv, hlin, mul_one]

/-- Each compound operator, as a state change of `*this` on operands that satisfy
the class invariant: it throws `InvalidDimensions` exactly as the binary operator
does and leaves `*this` as it was, or it leaves `*this` equal to the result of
the binary operator. -/
theorem Matrix.compound_cases [Ring K] (m x : Matrix K) (d : K) (hm : m.WF) (hx : x.WF) :
    ((m.operatorAdd x = .error .invalidDimensions ∧
        m.operatorAddAssign x = (m, .error .invalidDimensions)) ∨
      ∃ R, m.operatorAdd x = .ok R ∧ m.operatorAddAssign x = (R, .ok ())) ∧
    ((m.operatorSub x = .error .invalidDimensions ∧
        m.operatorSubAssign x = (m, .error .invalidDimensions)) ∨
      ∃ R, m.operatorSub x = .ok R ∧ m.operatorSubAssign x = (R, .ok ())) ∧
    ((m.operatorMul x = .error .invalidDimensions ∧
        m.operatorMulAssign x = (m, .error .invalidDimensions)) ∨
      ∃ R, m.operatorMul x = .ok R ∧ m.operatorMulAssign x = (R, .ok ())) ∧
    (∃ R, m.operatorMulScalar d = .ok R ∧ m.operatorMulScalarAssign d = (R, .ok ())) := by
  refine ⟨?_, ?_, ?_, ?_⟩
  · rcases Matrix.operatorAdd_cases hm x with e | ⟨R, e, hR, _, _⟩
    · left
      refine ⟨e, ?_⟩
      unfold Matrix.operatorAddAssign
      rw [e]
    · right
      refine ⟨R, e, ?_⟩
      unfold Matrix.operatorAddAssign
      rw [e]
      exact Matrix.operatorAssign_ok m hR
  · rcases Matrix.operatorSub_cases hm hx with e | ⟨R, e, hR, _, _⟩
    · left
      refine ⟨e, ?_⟩
      unfold Matrix.operatorSubAssign
      rw [e]
    · right
      refine ⟨R, e, ?_⟩
      unfold Matrix.operatorSubAssign
      rw [e]
      exact Matrix.operatorAssign_ok m hR
  · rcases Matrix.operatorMul_cases hm hx with e | ⟨R, e, hR, _, _⟩
    · left
      refine ⟨e, ?_⟩
      unfold Matrix.operatorMulAssign
      rw [e]
    · right
      refine ⟨R, e, ?_⟩
      unfold Matrix.operatorMulAssign
      rw [e]
      exact Matrix.operatorAssign_ok m hR
  · obtain ⟨R, e, hR, _, _, _⟩ := Matrix.operatorMulScalar_ok hm d
    refine ⟨R, e, ?_⟩
    unfold Matrix.operatorMulScalarAssign
    rw [e]
    exact Matrix.operatorAssign_ok m hR

/-! ## The claims -/

/-- Claim C1. On a matrix that satisfies the class invariant, `determinant()`
throws `InvalidDimensions` when `rows != cols`, returns the sole element of a
1 by 1 matrix, and for a square matrix of order at least 2 succeeds with the
sum over the column index `i` of the first row of
`element[0][i] * (-1)^(0+i) * determinant(S i)`, where `S i` is the matrix with
row 0 and column `i` deleted and each `determinant(S i)` succeeds. -/
theorem determinant_contract [CommRing K] (M : Matrix K) (hM : M.WF) :
    (M.rows ≠ M.cols → M.determinant = .error .invalidDimensions) ∧
    (M.rows = 1 → M.cols = 1 → M.determinant = .ok (rd M.values 0 0)) ∧
    (M.rows = M.cols → 2 ≤ M.rows →
      ∃ d : Nat → K,
        (∀ i, i < M.cols.toNat → (M.deleteRowCol 0 i).determinant = .ok (d i)) ∧
        M.determinant
          = .ok (∑ i in Finset.range M.cols.toNat, rd M.values 0 i * (-1) ^ (0 + i) * d i)) := by
  refine ⟨Matrix.determinant_not_square M hM, Matrix.determinant_one_by_one M hM, ?_⟩
  intro hsq h2
  obtain ⟨n, hn⟩ : ∃ n : Nat, M.cols = n := ⟨M.cols.toNat, by have := hM.2.1; omega⟩
  have hrows : M.rows = n := by rw [hsq, hn]
  have hn2 : 2 ≤ n := by omega
  have hsub : ∀ i, (M.deleteRowCol 0 i).determinant
      = .ok (Matrix.det ((M.deleteRowCol 0 i).toLin (n - 1) (n - 1))) := fun i =>
    Matrix.determinant_ok (M.deleteRowCol 0 i)
      (Matrix.deleteRowCol_wf M 0 i (by omega) (by omega))
      (by show M.rows - 1 = _; omega) (by show M.cols - 1 = _; omega)
  refine ⟨fun i => Matrix.det ((M.deleteRowCol 0 i).toLin (n - 1) (n - 1)),
    fun i _ => hsub i, ?_⟩
  have hc : M.cols.toNat = n := by omega
  rw [Matrix.determinant_rec M hM hrows hn hn2, hc]
  rw [foldlM_ok _ (fun sum i => sum + rd M.values 0 i *
      ((-1) ^ (0 + i) * Matrix.det ((M.deleteRowCol 0 i).toLin (n - 1) (n - 1))))]
  · rw [foldl_add_eq_sum, zero_add]
    congr 1
    apply Finset.sum_congr rfl
    intro i _
    rw [mul_assoc]
  · intro i _ sum
    rw [hsub i]
    simp only
    have := powNegOne_cast (K := K) 0 i
    rw [Nat.cast_zero] at this
    rw [this]

/-- Witness for C1: the three cases at a 2 by 2, a 2 by 3 and a 1 by 1 matrix. -/
theorem determinant_contract_witness :
    twoByTwo.WF ∧
    (∃ d : Nat → ℚ,
      (∀ i, i < twoByTwo.cols.toNat → (twoByTwo.deleteRowCol 0 i).determinant = .ok (d i)) ∧
      twoByTwo.determinant
        = .ok (∑ i in Finset.range twoByTwo.cols.toNat,
            rd twoByTwo.values 0 i * (-1) ^ (0 + i) * d i)) ∧
    twoByThree.determinant = .error .invalidDimensions ∧
    oneByOne.determinant = .ok (rd oneByOne.values 0 0) :=
  ⟨by decide, (determinant_contract twoByTwo (by decide)).2.2 rfl (by decide),
    (determinant_contract twoByThree (by decide)).1 (by decide),
    (determinant_contract oneByOne (by decide)).2.1 rfl rfl⟩

/-- Claim C2. With entries in a field, for every `n >= 2` and every `n` by `n`
matrix whose `determinant()` is not zero, `inverse()` succeeds and
`inverse(M) * M` is the matrix that `identity(n)` returns. -/
theorem inverse_mul_self [Field K] [DecidableEq K] (n : Nat) (hn : 2 ≤ n) (M : Matrix K)
    (hM : M.WF) (hrows : M.rows = n) (hcols : M.cols = n)
    (hdet : M.determinant ≠ .ok 0) :
    ∃ inv, M.inverse = .ok inv ∧
      ∃ P, inv.operatorMul M = .ok P ∧ Matrix.identity (n : Int) = .ok P := by
  have hd : Matrix.det (M.toLin n n) ≠ 0 := by
    intro h
    apply hdet
    rw [Matrix.determinant_ok M hM hrows hcols, h]
  obtain ⟨A, R, eA, eR, hR, hRr, hRc, hRv⟩ := Matrix.inverse_ok M hM hrows hcols hn hd
  obtain ⟨A', eA', _, _, _, hAv⟩ := Matrix.adjoint_ok M hM hrows hcols hn
  have hAA : A' = A := by
    rw [eA] at eA'
    exact (Except.ok.inj eA').symm
  subst hAA
  obtain ⟨P, eP, hP, hPr, hPc, hPv⟩ := Matrix.operatorMul_toLin hR hM
    (by rw [hRr, hrows]) (by rw [hRc, hcols]) hrows hcols
  obtain ⟨I, eI, hI, hIr, hIc, hIv⟩ :=
    Matrix.identity_ok (K := K) (by omega : (1 : Int) ≤ (n : Int))
  refine ⟨R, eR, P, eP, ?_⟩
  rw [eI]
  congr 1
  apply Matrix.eq_of_toLin hI hP hIr hIc hPr hPc
  rw [Matrix.identity_toLin I n (fun i j hi hj => hIv i j (by omega) (by omega)), hPv]
  obtain ⟨k, rfl⟩ : ∃ k, n = k + 2 := ⟨n - 2, by omega⟩
  have hadj := Matrix.adjoint_toLin M hrows hcols A' hAv
  have hRlin : R.toLin (k + 2) (k + 2)
      = (1 / Matrix.det (M.toLin (k + 2) (k + 2))) • Matrix.adjugate (M.toLin (k + 2) (k + 2)) := by
    funext i j
    rw [Matrix.smul_apply, ← hadj]
    show rd R.values i j = _ • rd A'.values i j
    rw [hRv i j i.isLt j.isLt, smul_eq_mul, mul_comm]
  rw [hRlin, Matrix.smul_mul, Matrix.adjugate_mul, smul_smul, one_div, inv_mul_cancel₀ hd,
    one_smul]

/-- Witness for C2: the specification's example `[[1,2],[3,4]]`, with
determinant `-2` and inverse `[[-2,1],[1.5,-0.5]]`. -/
theorem inverse_mul_self_witness :
    twoByTwo.determinant = .ok (-2) ∧ twoByTwo.inverse = .ok twoByTwoInverse ∧
    ∃ inv, twoByTwo.inverse = .ok inv ∧
      ∃ P, inv.operatorMul twoByTwo = .ok P ∧ Matrix.identity ((2 : Nat) : Int) = .ok P :=
  ⟨by decide!, by decide!,
    inverse_mul_self 2 (by decide) twoByTwo (by decide) rfl rfl (by decide!)⟩

/-- Claim C3, at the 1 by 1 matrix holding `5`: `determinant()` returns `5`,
which is not zero, and `inverse()` does not return: `cofactor()` reaches
`minorM`, whose `Matrix m(0, 0)` makes `alloc2D` throw its string literal. -/
theorem inverse_one_by_one_throws :
    oneByOne.WF ∧ oneByOne.determinant = .ok 5 ∧ oneByOne.singular = .ok false ∧
    oneByOne.inverse = .error .allocMessage :=
  ⟨by decide, by decide!, by decide!, by decide!⟩

/-- Claim C4, the general property. For every square matrix of order at least
2 that satisfies the class invariant, `cofactor()` returns a matrix of the same
shape whose entry `[i][j]` is `(-1)^(i+j)` times `minorM(i, j)` of the original
matrix. -/
theorem cofactorMatrix_contract [CommRing K] (M : Matrix K) (hM : M.WF)
    (hsq : M.rows = M.cols) (h2 : 2 ≤ M.rows) :
    ∃ R, M.cofactorMatrix = .ok R ∧ R.WF ∧ R.rows = M.rows ∧ R.cols = M.cols ∧
      ∀ i j : Nat, i < M.rows.toNat → j < M.cols.toNat →
        ∃ mn, M.minorM (i : Int) (j : Int) = .ok mn ∧
          rd R.values i j = (-1) ^ (i + j) * mn := by
  obtain ⟨n, hn⟩ : ∃ n : Nat, M.cols = n := ⟨M.cols.toNat, by have := hM.2.1; omega⟩
  have hrows : M.rows = n := by rw [hsq, hn]
  have hn2 : 2 ≤ n := by omega
  obtain ⟨R, e, hR, hRr, hRc, hRv⟩ := Matrix.cofactorMatrix_ok M hM hrows hn hn2
  refine ⟨R, e, hR, hRr, hRc, ?_⟩
  intro i j hi hj
  have hi' : i < n := by omega
  have hj' : j < n := by omega
  exact ⟨_, Matrix.minorM_ok M hM hrows hn hn2 hi' hj', hRv i j hi' hj'⟩

/-- Witness for C4: the scenario of the specification and of the driver,
`M = [[1,2,3],[0,4,5],[1,0,6]]` with determinant `22` and cofactor matrix
`[[24,5,-4],[-12,3,2],[-2,-5,4]]`. -/
theorem cofactorMatrix_contract_witness :
    driverMatrix.determinant = .ok 22 ∧ driverMatrix.cofactorMatrix = .ok driverCofactor ∧
    ∃ R, driverMatrix.cofactorMatrix = .ok R ∧ R.WF ∧ R.rows = driverMatrix.rows ∧
      R.cols = driverMatrix.cols ∧
      ∀ i j : Nat, i < driverMatrix.rows.toNat → j < driverMatrix.cols.toNat →
        ∃ mn, driverMatrix.minorM (i : Int) (j : Int) = .ok mn ∧
          rd R.values i j = (-1) ^ (i + j) * mn :=
  ⟨by decide!, by decide!, cofactorMatrix_contract driverMatrix (by decide) rfl (by decide)⟩

/-- Claim C5. For matrices `L` and `R` that satisfy the class invariant,
`L * R` throws `InvalidDimensions` exactly when `L.cols != R.rows`; otherwise it
returns a matrix of shape `L.rows` by `R.cols` whose entry `[i][j]` is the sum
over `k` in `[0, L.cols)` of `L[i][k] * R[k][j]`, accumulated from `0`.  The
operands are values that the operator only reads. -/
theorem operatorMul_contract [Semiring K] (L R : Matrix K) (hL : L.WF) (hR : R.WF) :
    (L.operatorMul R = .error .invalidDimensions ↔ L.cols ≠ R.rows) ∧
    (L.cols = R.rows →
      ∃ P, L.operatorMul R = .ok P ∧ P.WF ∧ P.rows = L.rows ∧ P.cols = R.cols ∧
        ∀ i j, i < L.rows.toNat → j < R.cols.toNat →
          rd P.values i j
            = (List.range L.cols.toNat).foldl
                (fun acc k => acc + rd L.values i k * rd R.values k j) 0 ∧
          rd P.values i j
            = ∑ k in Finset.range L.cols.toNat, rd L.values i k * rd R.values k j) := by
  constructor
  · constructor
    · intro h hc
      obtain ⟨P, e, _⟩ := Matrix.operatorMul_ok hL hR hc
      rw [e] at h
      exact Except.noConfusion h
    · intro h
      unfold Matrix.operatorMul
      rw [if_pos h]
  · intro hc
    obtain ⟨P, e, hP, hPr, hPc, hPv⟩ := Matrix.operatorMul_ok hL hR hc
    refine ⟨P, e, hP, hPr, hPc, ?_⟩
    intro i j hi hj
    refine ⟨?_, hPv i j hi hj⟩
    rw [hPv i j hi hj, foldl_add_eq_sum, zero_add]

/-- Witness for C5: a 2 by 3 matrix times a 2 by 2 matrix throws
`InvalidDimensions`, and a 2 by 2 matrix times a 2 by 3 matrix succeeds. -/
theorem operatorMul_contract_witness :
    twoByThree.operatorMul twoByTwo = .error .invalidDimensions ∧
    ∃ P, twoByTwo.operatorMul twoByThree = .ok P ∧ P.WF ∧ P.rows = twoByTwo.rows ∧
      P.cols = twoByThree.cols ∧
      ∀ i j, i < twoByTwo.rows.toNat → j < twoByThree.cols.toNat →
        rd P.values i j
          = (List.range twoByTwo.cols.toNat).foldl
              (fun acc k => acc + rd twoByTwo.values i k * rd twoByThree.values k j) 0 ∧
        rd P.values i j
          = ∑ k in Finset.range twoByTwo.cols.toNat,
              rd twoByTwo.values i k * rd twoByThree.values k j :=
  ⟨(operatorMul_contract twoByThree twoByTwo (by decide) (by decide)).1.mpr (by decide),
    (operatorMul_contract twoByTwo twoByThree (by decide) (by decide)).2 rfl⟩

/-- Claim C6. For matrices `A` and `B` that satisfy the class invariant, `A + B`
throws `InvalidDimensions` exactly when `A.rows != B.rows` or
`A.cols != B.cols`; otherwise it returns a matrix of the same shape whose entry
`[i][j]` is `A[i][j] + B[i][j]`. -/
theorem operatorAdd_contract [Zero K] [Add K] (A B : Matrix K) (hA : A.WF) :
    (A.operatorAdd B = .error .invalidDimensions ↔ (A.rows ≠ B.rows ∨ A.cols ≠ B.cols)) ∧
    (A.rows = B.rows → A.cols = B.cols →
      ∃ R, A.operatorAdd B = .ok R ∧ R.WF ∧ R.rows = A.rows ∧ R.cols = A.cols ∧
        ∀ i j, i < A.rows.toNat → j < A.cols.toNat →
          rd R.values i j = rd A.values i j + rd B.values i j) := by
  constructor
  · constructor
    · intro h
      by_contra hc
      rw [not_or, not_not, not_not] at hc
      obtain ⟨R, e, _⟩ := Matrix.operatorAdd_ok (N := B) hA hc.1 hc.2
      rw [e] at h
      exact Except.noConfusion h
    · intro h
      unfold Matrix.operatorAdd
      rw [if_pos h]
  · intro hr hc
    exact Matrix.operatorAdd_ok hA hr hc

/-- Witness for C6: a 2 by 2 matrix plus a 2 by 3 matrix throws
`InvalidDimensions`, and a 2 by 2 matrix plus itself succeeds. -/
theorem operatorAdd_contract_witness :
    twoByTwo.operatorAdd twoByThree = .error .invalidDimensions ∧
    ∃ R, twoByTwo.operatorAdd twoByTwo = .ok R ∧ R.WF ∧ R.rows = twoByTwo.rows ∧
      R.cols = twoByTwo.cols ∧
      ∀ i j, i < twoByTwo.rows.toNat → j < twoByTwo.cols.toNat →
        rd R.values i j = rd twoByTwo.values i j + rd twoByTwo.values i j :=
  ⟨(operatorAdd_contract twoByTwo twoByThree (by decide)).1.mpr (by decide),
    (operatorAdd_contract twoByTwo twoByTwo (by decide)).2 rfl rfl⟩

/-- Counterexample for C7: on `double` values, `identity(2)` times
`[[inf, 0], [0, 1]]` is `[[inf, 0], [NaN, 1]]`, because `0 * inf` is NaN, and
the product in the other order is `[[inf, NaN], [0, 1]]`; neither is the
matrix itself. -/
theorem identity_mul_infinity :
    withInfinity.WF ∧
    (Matrix.identity 2 : Except Failure (Matrix Dbl)) = .ok ⟨2, 2, [[1, 0], [0, 1]]⟩ ∧
    (⟨2, 2, [[1, 0], [0, 1]]⟩ : Matrix Dbl).operatorMul withInfinity
      = .ok ⟨2, 2, [[.pinf, .fin 0], [.nan, .fin 1]]⟩ ∧
    withInfinity.operatorMul (⟨2, 2, [[1, 0], [0, 1]]⟩ : Matrix Dbl)
      = .ok ⟨2, 2, [[.pinf, .nan], [.fin 0, .fin 1]]⟩ ∧
    ¬ ∃ I, Matrix.identity ((2 : Nat) : Int) = .ok I ∧
        I.operatorMul withInfinity = .ok withInfinity ∧
        withInfinity.operatorMul I = .ok withInfinity := by
  refine ⟨by decide, by decide!, by decide!, by decide!, ?_⟩
  rintro ⟨I, eI, h1, _⟩
  have e0 : (Matrix.identity ((2 : Nat) : Int) : Except Failure (Matrix Dbl))
      = .ok ⟨2, 2, [[1, 0], [0, 1]]⟩ := by decide!
  have hI := ok_unique e0 eI
  subst hI
  have h2 : (⟨2, 2, [[1, 0], [0, 1]]⟩ : Matrix Dbl).operatorMul withInfinity
      ≠ .ok withInfinity := by decide!
  exact h2 h1

/-- Claim C7, amended. For every `n >= 1` and every `n` by `n` matrix `M` of
`double` values that satisfies the class invariant and whose entries are all
finite (no infinity, no NaN), `identity(n)` succeeds, and `identity(n) * M`
and `M * identity(n)` both succeed and both return `M`. -/
theorem identity_mul_neutral (n : Nat) (hn : 1 ≤ n) (M : Matrix Dbl) (hM : M.WF)
    (hrows : M.rows = n) (hcols : M.cols = n)
    (hfin : ∀ i j, i < n → j < n → (rd M.values i j).isFinite = true) :
    ∃ I, Matrix.identity (n : Int) = .ok I ∧
      I.operatorMul M = .ok M ∧ M.operatorMul I = .ok M :=
  Matrix.identity_mul_of_laws n hn M hM hrows hcols Dbl.zero_add_zero
    (fun i j hi hj => Dbl.finite_laws _ (hfin i j hi hj))

/-- Witness for C7 amended: the matrix `[[1, -2], [3, 4]]` of `double` values. -/
theorem identity_mul_neutral_witness :
    ∃ I, Matrix.identity ((2 : Nat) : Int) = .ok I ∧
      I.operatorMul finiteEntries = .ok finiteEntries ∧
      finiteEntries.operatorMul I = .ok finiteEntries :=
  identity_mul_neutral 2 (by decide) finiteEntries (by decide) rfl rfl (by
    intro i j hi hj
    have hi2 : i = 0 ∨ i = 1 := by omega
    have hj2 : j = 0 ∨ j = 1 := by omega
    rcases hi2 with h | h <;> rcases hj2 with g | g <;> subst h <;> subst g <;> rfl)

/-- Claim C8. For every matrix `M` of any shape `r` by `c` that satisfies the
class invariant, `transpose()` succeeds and returns a `c` by `r` matrix `T` with
`T[j][i] = M[i][j]`, and `transpose()` of `T` returns `M`. -/
theorem transpose_involution [Zero K] (M : Matrix K) (hM : M.WF) :
    ∃ T, M.transpose = .ok T ∧ T.WF ∧ T.rows = M.cols ∧ T.cols = M.rows ∧
      (∀ i j, i < M.rows.toNat → j < M.cols.toNat → rd T.values j i = rd M.values i j) ∧
      T.transpose = .ok M := by
  obtain ⟨T, eT, hT, hTr, hTc, hTv⟩ := Matrix.transpose_ok hM
  obtain ⟨U, eU, hU, hUr, hUc, hUv⟩ := Matrix.transpose_ok hT
  refine ⟨T, eT, hT, hTr, hTc, hTv, ?_⟩
  rw [eU]
  congr 1
  apply Matrix.ext_of_rd hU hM (by rw [hUr, hTc]) (by rw [hUc, hTr])
  intro i j hi hj
  rw [hUr, hTc] at hi
  rw [hUc, hTr] at hj
  rw [hUv j i (by rw [hTr]; exact hj) (by rw [hTc]; exact hi), hTv i j hi hj]

/-- Witness for C8: a 2 by 3 matrix. -/
theorem transpose_involution_witness :
    ∃ T, twoByThree.transpose = .ok T ∧ T.WF ∧ T.rows = twoByThree.cols ∧
      T.cols = twoByThree.rows ∧
      (∀ i j, i < twoByThree.rows.toNat → j < twoByThree.cols.toNat →
        rd T.values j i = rd twoByThree.values i j) ∧
      T.transpose = .ok twoByThree :=
  transpose_involution twoByThree (by decide)

/-- Claim C9. With exact entries, for matrices `M`, `N`, `P` of one common shape
that satisfy the class invariant, every sum below succeeds, `M + N` equals
`N + M`, and `(M + N) + P` equals `M + (N + P)`. -/
theorem operatorAdd_comm_assoc [AddCommMonoid K] (M N P : Matrix K) (hM : M.WF) (hN : N.WF)
    (hMN : M.rows = N.rows ∧ M.cols = N.cols) (hNP : N.rows = P.rows ∧ N.cols = P.cols) :
    ∃ S T R, M.operatorAdd N = .ok S ∧ N.operatorAdd M = .ok S ∧
      N.operatorAdd P = .ok T ∧ S.operatorAdd P = .ok R ∧ M.operatorAdd T = .ok R := by
  obtain ⟨S, eS, hS, hSr, hSc, hSv⟩ := Matrix.operatorAdd_ok (N := N) hM hMN.1 hMN.2
  obtain ⟨S', eS', hS', hSr', hSc', hSv'⟩ :=
    Matrix.operatorAdd_ok (N := M) hN hMN.1.symm hMN.2.symm
  obtain ⟨T, eT, hT, hTr, hTc, hTv⟩ := Matrix.operatorAdd_ok (N := P) hN hNP.1 hNP.2
  obtain ⟨R, eR, hR, hRr, hRc, hRv⟩ := Matrix.operatorAdd_ok (N := P) hS
    (by rw [hSr, hMN.1, hNP.1]) (by rw [hSc, hMN.2, hNP.2])
  obtain ⟨R', eR', hR', hRr', hRc', hRv'⟩ := Matrix.operatorAdd_ok (N := T) hM
    (by rw [hTr, hMN.1]) (by rw [hTc, hMN.2])
  refine ⟨S, T, R, eS, ?_, eT, eR, ?_⟩
  · rw [eS']
    congr 1
    apply Matrix.ext_of_rd hS' hS (by rw [hSr', hSr, hMN.1]) (by rw [hSc', hSc, hMN.2])
    intro i j hi hj
    rw [hSr'] at hi
    rw [hSc'] at hj
    rw [hSv' i j hi hj, hSv i j (by rw [hMN.1]; exact hi) (by rw [hMN.2]; exact hj), add_comm]
  · rw [eR']
    congr 1
    apply Matrix.ext_of_rd hR' hR (by rw [hRr', hRr, hSr]) (by rw [hRc', hRc, hSc])
    intro i j hi hj
    rw [hRr'] at hi
    rw [hRc'] at hj
    rw [hRv' i j hi hj, hRv i j (by rw [hSr]; exact hi) (by rw [hSc]; exact hj),
      hSv i j hi hj, hTv i j (by rw [← hMN.1]; exact hi) (by rw [← hMN.2]; exact hj),
      add_assoc]

/-- Witness for C9: the driver's matrix, its cofactor grid and the driver's
matrix again. -/
theorem operatorAdd_comm_assoc_witness :
    ∃ S T R, driverMatrix.operatorAdd driverCofactor = .ok S ∧
      driverCofactor.operatorAdd driverMatrix = .ok S ∧
      driverCofactor.operatorAdd driverMatrix = .ok T ∧ S.operatorAdd driverMatrix = .ok R ∧
      driverMatrix.operatorAdd T = .ok R :=
  operatorAdd_comm_assoc driverMatrix driverCofactor driverMatrix (by decide) (by decide)
    ⟨rfl, rfl⟩ ⟨rfl, rfl⟩

/-- Claim C10. For every `n >= 1`, `identity(n)` succeeds and `determinant()`
of the result succeeds and returns `1`. -/
theorem determinant_identity [CommRing K] (n : Nat) (hn : 1 ≤ n) :
    ∃ I : Matrix K, Matrix.identity (n : Int) = .ok I ∧ I.determinant = .ok 1 := by
  obtain ⟨I, eI, hI, hIr, hIc, hIv⟩ :=
    Matrix.identity_ok (K := K) (by omega : (1 : Int) ≤ (n : Int))
  refine ⟨I, eI, ?_⟩
  rw [Matrix.determinant_ok I hI hIr hIc,
    Matrix.identity_toLin I n (fun i j hi hj => hIv i j (by omega) (by omega)), Matrix.det_one]

/-- Witness for C10: the order 5 that the driver prints. -/
theorem determinant_identity_witness :
    ∃ I : Matrix ℚ, Matrix.identity ((5 : Nat) : Int) = .ok I ∧ I.determinant = .ok 1 :=
  determinant_identity 5 (by decide)

/-- Claim C11. With exact entries, for every square matrix of order `n >= 2`
that satisfies the class invariant and has two identical rows `p != q`,
`determinant()` returns `0`. -/
theorem determinant_repeated_row [CommRing K] (n : Nat) (hn : 2 ≤ n) (M : Matrix K)
    (hM : M.WF) (hrows : M.rows = n) (hcols : M.cols = n) (p q : Nat) (hp : p < n)
    (hq : q < n) (hpq : p ≠ q) (hrow : ∀ j, j < n → rd M.values p j = rd M.values q j) :
    M.determinant = .ok 0 := by
  have hn1 : 1 ≤ n := by omega
  rw [Matrix.determinant_ok M hM hrows hcols]
  congr 1
  apply Matrix.det_zero_of_row_eq (i := ⟨p, hp⟩) (j := ⟨q, hq⟩)
  · intro e
    exact hpq (congrArg Fin.val e)
  · funext j
    exact hrow j j.isLt

/-- Witness for C11: the matrix `[[1,2],[1,2]]`. -/
theorem determinant_repeated_row_witness : repeatedRows.determinant = .ok 0 :=
  determinant_repeated_row 2 (by decide) repeatedRows (by decide) rfl rfl 0 1 (by decide)
    (by decide) (by decide) (by
      intro j hj
      have : j = 0 ∨ j = 1 := by omega
      rcases this with h | h <;> subst h <;> rfl)

/-- Claim C12, at a 1 by 1 and a 2 by 2 matrix with the same element `[0][0]`:
the shapes differ, and `operator==` returns `true` and `operator!=` returns
`false`, because the loops compare over the shape of the left operand only. -/
theorem operatorEq_shape_mismatch :
    oneByOneUnit.WF ∧ twoByTwo.WF ∧ oneByOneUnit.rows ≠ twoByTwo.rows ∧
    oneByOneUnit.operatorEq twoByTwo false = true ∧
    oneByOneUnit.operatorNe twoByTwo false = false :=
  ⟨by decide, by decide, by decide, by decide!, by decide!⟩

/-- Counterexample for C13: `Matrix(0, 3)` and `Matrix(3, -1)` end with the
string literal of `alloc2D`, which is not the `InvalidDimensions` that a
shape-mismatched addition throws. -/
theorem construct_not_invalidDimensions :
    (Matrix.mkZero 0 3 : Except Failure (Matrix ℚ)) = .error .allocMessage ∧
    (Matrix.mkZero 3 (-1) : Except Failure (Matrix ℚ)) = .error .allocMessage ∧
    twoByTwo.operatorAdd twoByThree = .error .invalidDimensions ∧
    (Matrix.mkZero 0 3 : Except Failure (Matrix ℚ)) ≠ .error .invalidDimensions ∧
    (Matrix.identity 0 : Except Failure (Matrix ℚ)) ≠ .error .invalidDimensions :=
  ⟨by decide, by decide, by decide!, by decide, by decide⟩

/-- Claim C13, amended. `Matrix(r, c)` with `r <= 0` or `c <= 0` ends with the
string literal that `alloc2D` throws, and so does `identity(size)` with
`size <= 0`; with `r >= 1` and `c >= 1` the construction succeeds with shape
`r` by `c` and `get(i, j)` returns `0` for every `0 <= i < r`, `0 <= j < c`. -/
theorem construct_contract [Zero K] [One K] (r c size : Int) :
    (r ≤ 0 ∨ c ≤ 0 → (Matrix.mkZero r c : Except Failure (Matrix K)) = .error .allocMessage) ∧
    (size ≤ 0 → (Matrix.identity size : Except Failure (Matrix K)) = .error .allocMessage) ∧
    (1 ≤ r → 1 ≤ c →
      ∃ M : Matrix K, Matrix.mkZero r c = .ok M ∧ M.WF ∧ M.rows = r ∧ M.cols = c ∧
        ∀ i j : Int, 0 ≤ i → i < r → 0 ≤ j → j < c → M.get i j = .ok 0) := by
  refine ⟨Matrix.mkZero_err, Matrix.identity_err, ?_⟩
  intro hr hc
  have e := Matrix.mkZero_ok (K := K) hr hc
  obtain ⟨_, _, hwf, hrows, hcols, hz⟩ := Matrix.mkZero_wf e
  refine ⟨_, e, hwf, hrows, hcols, ?_⟩
  intro i j hi0 hi hj0 hj
  rw [Matrix.get_ok _ hi0 (by rw [hrows]; exact hi) hj0 (by rw [hcols]; exact hj), hz]

/-- Witness for C13 amended: `Matrix(0, 3)`, `identity(0)` and `Matrix(2, 3)`. -/
theorem construct_contract_witness :
    (Matrix.mkZero 0 3 : Except Failure (Matrix ℚ)) = .error .allocMessage ∧
    (Matrix.identity 0 : Except Failure (Matrix ℚ)) = .error .allocMessage ∧
    ∃ M : Matrix ℚ, Matrix.mkZero 2 3 = .ok M ∧ M.WF ∧ M.rows = 2 ∧ M.cols = 3 ∧
      ∀ i j : Int, 0 ≤ i → i < 2 → 0 ≤ j → j < 3 → M.get i j = .ok 0 :=
  ⟨(construct_contract 0 3 0).1 (by decide), (construct_contract 0 3 0).2.1 (by decide),
    (construct_contract 2 3 0).2.2 (by decide) (by decide)⟩

/-- Counterexample for C14: in `m += m` the right operand is the object `m`
itself; the call succeeds and that object, `[[1,2],[3,4]]` before the call, is
`[[2,4],[6,8]]` after it. -/
theorem compound_changes_aliased_operand :
    Matrix.compoundCall Matrix.operatorAddAssign twoByTwo twoByTwo true
      = (⟨2, 2, [[2, 4], [6, 8]]⟩, ⟨2, 2, [[2, 4], [6, 8]]⟩, .ok ()) ∧
    (Matrix.compoundCall Matrix.operatorAddAssign twoByTwo twoByTwo true).2.1 ≠ twoByTwo :=
  ⟨by decide!, by decide!⟩

/-- Claim C14, amended. For matrices `m` and `x` that satisfy the class
invariant and a scalar `d`, each of `m += x`, `m -= x`, `m *= x` either throws
`InvalidDimensions`, as the binary operator does, and leaves `m` and the right
operand as they were, or succeeds and leaves `m` equal to the result of the
binary operator; `m *= d` always succeeds and leaves `m` equal to `m * d`.  A
right operand that is another object than `m` is never changed; a right operand
that is `m` itself (`aliased`) is, after a success, the result as `m` is. -/
theorem compound_atomic [Ring K] (m x : Matrix K) (d : K) (hm : m.WF) (hx : x.WF)
    (aliased : Bool) (hal : aliased = true → x = m) :
    ((m.operatorAdd x = .error .invalidDimensions ∧
        Matrix.compoundCall Matrix.operatorAddAssign m x aliased
          = (m, x, .error .invalidDimensions)) ∨
      ∃ R, m.operatorAdd x = .ok R ∧
        Matrix.compoundCall Matrix.operatorAddAssign m x aliased
          = (R, (if aliased then R else x), .ok ())) ∧
    ((m.operatorSub x = .error .invalidDimensions ∧
        Matrix.compoundCall Matrix.operatorSubAssign m x aliased
          = (m, x, .error .invalidDimensions)) ∨
      ∃ R, m.operatorSub x = .ok R ∧
        Matrix.compoundCall Matrix.operatorSubAssign m x aliased
          = (R, (if aliased then R else x), .ok ())) ∧
    ((m.operatorMul x = .error .invalidDimensions ∧
        Matrix.compoundCall Matrix.operatorMulAssign m x aliased
          = (m, x, .error .invalidDimensions)) ∨
      ∃ R, m.operatorMul x = .ok R ∧
        Matrix.compoundCall Matrix.operatorMulAssign m x aliased
          = (R, (if aliased then R else x), .ok ())) ∧
    (∃ R, m.operatorMulScalar d = .ok R ∧ m.operatorMulScalarAssign d = (R, .ok ())) := by
  obtain ⟨c1, c2, c3, c4⟩ := Matrix.compound_cases m x d hm hx
  have key : ∀ (op : Matrix K → Matrix K → Matrix K × Except Failure Unit),
      (op m x = (m, .error .invalidDimensions) →
        Matrix.compoundCall op m x aliased = (m, x, .error .invalidDimensions)) ∧
      (∀ R, op m x = (R, .ok ()) →
        Matrix.compoundCall op m x aliased = (R, (if aliased then R else x), .ok ())) := by
    intro op
    cases aliased with
    | false =>
      constructor
      · intro h
        show ((op m x).1, x, (op m x).2) = _
        rw [h]
      · intro R h
        show ((op m x).1, x, (op m x).2) = _
        rw [h]
        rfl
    | true =>
      have hxm := hal rfl
      subst hxm
      constructor
      · intro h
        show ((op x x).1, (op x x).1, (op x x).2) = _
        rw [h]
      · intro R h
        show ((op x x).1, (op x x).1, (op x x).2) = _
        rw [h]
        rfl
  refine ⟨?_, ?_, ?_, c4⟩
  · rcases c1 with ⟨e, h⟩ | ⟨R, e, h⟩
    · exact Or.inl ⟨e, (key _).1 h⟩
    · exact Or.inr ⟨R, e, (key _).2 R h⟩
  · rcases c2 with ⟨e, h⟩ | ⟨R, e, h⟩
    · exact Or.inl ⟨e, (key _).1 h⟩
    · exact Or.inr ⟨R, e, (key _).2 R h⟩
  · rcases c3 with ⟨e, h⟩ | ⟨R, e, h⟩
    · exact Or.inl ⟨e, (key _).1 h⟩
    · exact Or.inr ⟨R, e, (key _).2 R h⟩

/-- Witness for C14 amended: on a 2 by 2 matrix `m`, `m += x` and `m -= x` with a
2 by 3 matrix `x` throw and leave both as they were, `m *= x` succeeds and
leaves `x` as it was, and in `m += m` the one object becomes the sum. -/
theorem compound_atomic_witness :
    Matrix.compoundCall Matrix.operatorAddAssign twoByTwo twoByThree false
      = (twoByTwo, twoByThree, .error .invalidDimensions) ∧
    Matrix.compoundCall Matrix.operatorSubAssign twoByTwo twoByThree false
      = (twoByTwo, twoByThree, .error .invalidDimensions) ∧
    Matrix.compoundCall Matrix.operatorMulAssign twoByTwo twoByThree false
      = (⟨2, 3, [[9, 12, 15], [19, 26, 33]]⟩, twoByThree, .ok ()) ∧
    ((twoByTwo.operatorAdd twoByThree = .error .invalidDimensions ∧
        Matrix.compoundCall Matrix.operatorAddAssign twoByTwo twoByThree false
          = (twoByTwo, twoByThree, .error .invalidDimensions)) ∨
      ∃ R, twoByTwo.operatorAdd twoByThree = .ok R ∧
        Matrix.compoundCall Matrix.operatorAddAssign twoByTwo twoByThree false
          = (R, (if false then R else twoByThree), .ok ())) ∧
    ((twoByTwo.operatorAdd twoByTwo = .error .invalidDimensions ∧
        Matrix.compoundCall Matrix.operatorAddAssign twoByTwo twoByTwo true
          = (twoByTwo, twoByTwo, .error .invalidDimensions)) ∨
      ∃ R, twoByTwo.operatorAdd twoByTwo = .ok R ∧
        Matrix.compoundCall Matrix.operatorAddAssign twoByTwo twoByTwo true
          = (R, (if true then R else twoByTwo), .ok ())) :=
  ⟨by decide!, by decide!, by decide!,
    (compound_atomic twoByTwo twoByThree 2 (by decide) (by decide) false
      (fun h => absurd h (by decide))).1,
    (compound_atomic twoByTwo twoByTwo 2 (by decide) (by decide) true (fun _ => rfl)).1⟩

/-- Claim C15. For every matrix with `rows != cols` that satisfies the class
invariant, `inverse()` throws `InvalidDimensions` and `singular()` returns
`false` without throwing. -/
theorem non_square_inverse_singular [Field K] [DecidableEq K] (M : Matrix K) (hM : M.WF)
    (h : M.rows ≠ M.cols) :
    M.inverse = .error .invalidDimensions ∧ M.singular = .ok false :=
  ⟨Matrix.inverse_not_square M hM h, Matrix.singular_not_square M hM h⟩

/-- Witness for C15: a 2 by 3 matrix. -/
theorem non_square_inverse_singular_witness :
    twoByThree.inverse = .error .invalidDimensions ∧ twoByThree.singular = .ok false :=
  non_square_inverse_singular twoByThree (by decide) (by decide)

/-- Claim C16. On a matrix that satisfies the class invariant, `minorM(r, c)`
throws `InvalidDimensions` when `rows != cols`; for a square matrix of order
`n >= 2` and `0 <= r < n`, `0 <= c < n` the matrix it fills is the
`(n-1)` by `(n-1)` matrix `S` with
`S[a][b] = M[a + (1 if a >= r else 0)][b + (1 if b >= c else 0)]`, and it
returns what `determinant()` returns on `S`, which is a value. -/
theorem minorM_contract [CommRing K] (M : Matrix K) (hM : M.WF) :
    (M.rows ≠ M.cols → ∀ r c : Int, M.minorM r c = .error .invalidDimensions) ∧
    (M.rows = M.cols → 2 ≤ M.rows → ∀ r c : Nat, (r : Int) < M.rows → (c : Int) < M.cols →
      M.minorMatrix (r : Int) (c : Int) = .ok (M.deleteRowCol r c) ∧
      (M.deleteRowCol r c).WF ∧
      (M.deleteRowCol r c).rows = M.rows - 1 ∧ (M.deleteRowCol r c).cols = M.cols - 1 ∧
      (∀ a b : Nat, (a : Int) < M.rows - 1 → (b : Int) < M.cols - 1 →
        rd (M.deleteRowCol r c).values a b
          = rd M.values (a + if a ≥ r then 1 else 0) (b + if b ≥ c then 1 else 0)) ∧
      ∃ d, (M.deleteRowCol r c).determinant = .ok d ∧ M.minorM (r : Int) (c : Int) = .ok d) := by
  refine ⟨fun h r c => Matrix.minorM_not_square M hM h r c, ?_⟩
  intro hsq h2 r c hr hc
  obtain ⟨n, hn⟩ : ∃ n : Nat, M.cols = n := ⟨M.cols.toNat, by have := hM.2.1; omega⟩
  have hrows : M.rows = n := by rw [hsq, hn]
  have hn2 : 2 ≤ n := by omega
  have hr' : r < n := by omega
  have hc' : c < n := by omega
  have hwf := Matrix.deleteRowCol_wf M r c (by omega) (by omega)
  refine ⟨Matrix.minorMatrix_ok M hM hrows hn hn2 hr' hc', hwf, rfl, rfl, ?_, ?_⟩
  · intro a b ha hb
    unfold Matrix.deleteRowCol
    rw [rd_table _ _ _ (by omega) (by omega)]
    rfl
  · refine ⟨_, ?_, Matrix.minorM_ok M hM hrows hn hn2 hr' hc'⟩
    exact Matrix.determinant_ok (n := n - 1) (M.deleteRowCol r c) hwf
      (by show M.rows - 1 = _; omega) (by show M.cols - 1 = _; omega)

/-- Witness for C16: `minorM(1, 1)` on the driver's matrix is the determinant
of `[[1,3],[1,6]]`, which is `3`; on a 2 by 3 matrix `minorM` throws. -/
theorem minorM_contract_witness :
    driverMatrix.minorMatrix 1 1 = .ok ⟨2, 2, [[1, 3], [1, 6]]⟩ ∧
    driverMatrix.minorM 1 1 = .ok 3 ∧
    twoByThree.minorM 0 0 = .error .invalidDimensions ∧
    (∃ d, (driverMatrix.deleteRowCol 1 1).determinant = .ok d ∧
      driverMatrix.minorM ((1 : Nat) : Int) ((1 : Nat) : Int) = .ok d) :=
  ⟨by decide!, by decide!,
    (minorM_contract twoByThree (by decide)).1 (by decide) 0 0,
    ((minorM_contract driverMatrix (by decide)).2 rfl (by decide) 1 1
      (by decide) (by decide)).2.2.2.2.2⟩

/-- Claim C17. Every matrix that a constructor (default, scalar, `(r, c)`,
`(r, c, source)`, copy) returns, that an assignment or a compound operator
leaves in `*this`, or that a successful `+`, `-`, `*`, scalar `*`,
`transpose()`, `cofactor()`, `adjoint()`, `inverse()` or `identity(size)`
returns, on operands that satisfy the class invariant, satisfies the class
invariant: `rows >= 1`, `cols >= 1` and a buffer of exactly `rows` rows of
exactly `cols` elements. -/
theorem nonempty_invariant [Field K] [DecidableEq K] :
    (∃ M : Matrix K, Matrix.mkDefault = .ok M ∧ M.WF) ∧
    (∀ d : K, ∃ M : Matrix K, Matrix.mkScalar d = .ok M ∧ M.WF) ∧
    (∀ (r c : Int) (M : Matrix K), Matrix.mkZero r c = .ok M → M.WF) ∧
    (∀ (r c : Int) (v : Buf K) (M : Matrix K), Matrix.mkFrom r c v = .ok M → M.WF) ∧
    (∀ other M : Matrix K, other.copy = .ok M → M.WF) ∧
    (∀ A B : Matrix K, A.WF → B.WF →
      (∀ aliased, (A.operatorAssign B aliased).1.WF) ∧
      (∀ R, A.operatorAdd B = .ok R → R.WF) ∧
      (∀ R, A.operatorSub B = .ok R → R.WF) ∧
      (∀ R, A.operatorMul B = .ok R → R.WF) ∧
      (A.operatorAddAssign B).1.WF ∧
      (A.operatorSubAssign B).1.WF ∧
      (A.operatorMulAssign B).1.WF) ∧
    (∀ A : Matrix K, A.WF →
      (∀ d R, A.operatorMulScalar d = .ok R → R.WF) ∧
      (∀ d, (A.operatorMulScalarAssign d).1.WF) ∧
      (∀ R, A.transpose = .ok R → R.WF) ∧
      (∀ R, A.cofactorMatrix = .ok R → R.WF) ∧
      (∀ R, A.adjoint = .ok R → R.WF) ∧
      (∀ R, A.inverse = .ok R → R.WF)) ∧
    (∀ (size : Int) (R : Matrix K), Matrix.identity size = .ok R → R.WF) := by
  refine ⟨⟨_, rfl, Matrix.mkDefault_wf rfl⟩, fun d => ⟨_, rfl, Matrix.mkScalar_wf rfl⟩,
    fun r c M h => (Matrix.mkZero_wf h).2.2.1, fun r c v M h => Matrix.mkFrom_wf h,
    fun other M h => Matrix.copy_wf h, ?_, ?_, fun size R h => Matrix.identity_wf h⟩
  · intro A B hA hB
    exact ⟨fun al => Matrix.operatorAssign_wf hA hB al,
      fun R h => Matrix.operatorAdd_wf hA h,
      fun R h => Matrix.operatorSub_wf hA hB h,
      fun R h => Matrix.operatorMul_wf hA hB h,
      Matrix.operatorAddAssign_wf hA,
      Matrix.operatorSubAssign_wf hA hB,
      Matrix.operatorMulAssign_wf hA hB⟩
  · intro A hA
    exact ⟨fun d R h => Matrix.operatorMulScalar_wf hA h,
      fun d => Matrix.operatorMulScalarAssign_wf hA d,
      fun R h => Matrix.transpose_wf hA h,
      fun R h => (Matrix.cofactorMatrix_wf hA h).1,
      fun R h => Matrix.adjoint_wf hA h,
      fun R h => Matrix.inverse_wf hA h⟩

/-- Witness for C17: the inverse of `[[1,2],[3,4]]`, the product of a 2 by 2 and
a 2 by 3 matrix, and `identity(3)` satisfy the class invariant. -/
theorem nonempty_invariant_witness :
    twoByTwoInverse.WF ∧
    (∀ R, twoByTwo.operatorMul twoByThree = .ok R → R.WF) ∧
    (∀ R : Matrix ℚ, Matrix.identity 3 = .ok R → R.WF) :=
  ⟨(nonempty_invariant (K := ℚ)).2.2.2.2.2.2.1 twoByTwo (by decide) |>.2.2.2.2.2
      twoByTwoInverse (by decide!),
    (nonempty_invariant (K := ℚ)).2.2.2.2.2.1 twoByTwo twoByThree (by decide) (by decide)
      |>.2.2.2.1,
    (nonempty_invariant (K := ℚ)).2.2.2.2.2.2.2 3⟩

/-- Claim C18. For every square matrix of order `n >= 1` that satisfies the
class invariant, the recursion `determinant -> cofactor(0, i) -> minorM ->
determinant` ends with a value: a bound of `n` nested `determinant` calls, or
more, gives it, and a bound below `n` is used up, so the 1 by 1 base case is
`n - 1` levels down.  For `n >= 2` every `minorM(0, i)` that `determinant()`
calls builds a matrix of order `n - 1 >= 1` that satisfies the class
invariant, never a 0 by 0 matrix. -/
theorem determinant_terminates [Ring K] (n : Nat) (hn : 1 ≤ n) (M : Matrix K) (hM : M.WF)
    (hrows : M.rows = n) (hcols : M.cols = n) :
    (∃ d, M.determinant = .ok d ∧ ∀ fuel, n ≤ fuel → Matrix.determinantFuel fuel M = .ok d) ∧
    (∀ fuel, fuel < n → Matrix.determinantFuel fuel M = .error .fuel) ∧
    (2 ≤ n → ∀ i : Nat, i < n →
      ∃ m, M.minorMatrix 0 (i : Int) = .ok m ∧ m.WF ∧ m.rows = (n : Int) - 1 ∧
        m.cols = (n : Int) - 1 ∧ 1 ≤ m.rows) := by
  obtain ⟨k, rfl⟩ : ∃ k, n = k + 1 := ⟨n - 1, by omega⟩
  have henough := Matrix.determinantFuel_enough k M hM hrows hcols
  refine ⟨?_, fun fuel hf => Matrix.determinantFuel_short fuel M (k + 1) hM hrows hcols hf, ?_⟩
  · cases hd : M.determinant with
    | ok d => exact ⟨d, rfl, fun fuel hf => by rw [henough fuel hf, hd]⟩
    | error e =>
      exfalso
      have hshort : ∀ (j : Nat) (N : Matrix K), N.WF → N.rows = (j + 1 : Nat) →
          N.cols = (j + 1 : Nat) → ∃ d, N.determinant = .ok d := by
        intro j
        induction j with
        | zero =>
          intro N hN hr hc
          exact ⟨_, Matrix.determinant_one_by_one N hN (by simpa using hr) (by simpa using hc)⟩
        | succ j ih =>
          intro N hN hr hc
          have hsub : ∀ i, ∃ d, (N.deleteRowCol 0 i).determinant = .ok d := fun i =>
            ih (N.deleteRowCol 0 i) (Matrix.deleteRowCol_wf N 0 i (by omega) (by omega))
              (by show N.rows - 1 = _; omega) (by show N.cols - 1 = _; omega)
          rw [Matrix.determinant_rec N hN hr hc (by omega)]
          refine ⟨_, foldlM_ok _ (fun sum i => sum + rd N.values 0 i *
            (Matrix.powNegOne ((0 : Int) + (i : Int)) * (Classical.choose (hsub i)))) _ _ ?_⟩
          intro i _ sum
          rw [Classical.choose_spec (hsub i)]
      obtain ⟨d, hd'⟩ := hshort k M hM hrows hcols
      rw [hd] at hd'
      exact Except.noConfusion hd'
  · intro h2 i hi
    have hmm := Matrix.minorMatrix_ok M hM hrows hcols h2 (by omega : 0 < k + 1) hi
    rw [Nat.cast_zero] at hmm
    have hwf := Matrix.deleteRowCol_wf M 0 i (by omega) (by omega)
    refine ⟨_, hmm, hwf, ?_, ?_, hwf.1⟩
    · show M.rows - 1 = _
      omega
    · show M.cols - 1 = _
      omega

/-- Witness for C18: the driver's matrix of order 3: a bound of 3 gives the
value `22`, a bound of 2 is used up. -/
theorem determinant_terminates_witness :
    Matrix.determinantFuel 3 driverMatrix = .ok 22 ∧
    Matrix.determinantFuel 2 driverMatrix = .error .fuel ∧
    (∃ d, driverMatrix.determinant = .ok d ∧
      ∀ fuel, 3 ≤ fuel → Matrix.determinantFuel fuel driverMatrix = .ok d) :=
  ⟨by decide!, by decide!,
    (determinant_terminates 3 (by decide) driverMatrix (by decide) rfl rfl).1⟩

/-- Claim C19. With entries in a commutative ring, for every `n >= 1` and every
`n` by `n` matrix that satisfies the class invariant, `determinant()` returns
the Leibniz determinant: the sum over the permutations `s` of `sign(s)` times
the product over `i` of `M[i][s(i)]`. -/
theorem determinant_eq_leibniz [CommRing K] (n : Nat) (hn : 1 ≤ n) (M : Matrix K)
    (hM : M.WF) (hrows : M.rows = n) (hcols : M.cols = n) :
    M.determinant = .ok (M.leibniz n) := by
  have hpos : 0 < n := hn
  rw [Matrix.determinant_ok M hM hrows hcols, Matrix.leibniz_eq_det]

/-- Witness for C19: the driver's matrix, with value `22` on both sides. -/
theorem determinant_eq_leibniz_witness :
    driverMatrix.determinant = .ok (driverMatrix.leibniz 3) ∧
    driverMatrix.determinant = .ok 22 :=
  ⟨determinant_eq_leibniz 3 (by decide) driverMatrix (by decide) rfl rfl, by decide!⟩

/-- Claim C20. For every square matrix of order `n >= 2` and every
`0 <= r < n`, `0 <= c < n`, the fill loop of `minorM(r, c)` leaves the buffer
that its writes leave, and these writes are, in order, one write of
`M[a + (1 if a >= r else 0)][b + (1 if b >= c else 0)]` to each cell `(a, b)`
of the `(n-1)` by `(n-1)` buffer, row by row: every write has `mi < n - 1` and
`mj < n - 1`, each cell is written exactly once, and there are
`(n-1) * (n-1)` writes. -/
theorem minorM_fill_in_bounds [Zero K] (n : Nat) (hn : 2 ≤ n) (M : Matrix K)
    (hrows : M.rows = n) (hcols : M.cols = n) (r c : Nat) (hr : r < n) (hc : c < n) :
    (∀ init, (Matrix.minorFill M (r : Int) (c : Int) init).1
        = (Matrix.minorWrites M (r : Int) (c : Int)).1.foldl
            (fun b w => wr b w.1 w.2.1 w.2.2) init) ∧
    (Matrix.minorWrites M (r : Int) (c : Int)).1
      = (pairs (n - 1) (n - 1)).map
          (fun p => (p.1, p.2, rd M.values (skip r p.1) (skip c p.2))) ∧
    (∀ w ∈ (Matrix.minorWrites M (r : Int) (c : Int)).1, w.1 < n - 1 ∧ w.2.1 < n - 1) ∧
    (∀ a b, a < n - 1 → b < n - 1 →
      (((Matrix.minorWrites M (r : Int) (c : Int)).1.map (fun w => (w.1, w.2.1))).filter
        (fun q => decide (q = (a, b)))).length = 1) ∧
    (Matrix.minorWrites M (r : Int) (c : Int)).1.length = (n - 1) * (n - 1) := by
  have hspec := minorWrites_spec M r c (C := n - 1) (by omega) (by omega) (by omega) (by omega)
  have hpos : (Matrix.minorWrites M (r : Int) (c : Int)).1.map (fun w => (w.1, w.2.1))
      = pairs (n - 1) (n - 1) := by
    rw [hspec, List.map_map]
    conv_rhs => rw [← List.map_id (pairs (n - 1) (n - 1))]
    apply List.map_congr_left
    intro p _
    rfl
  refine ⟨fun init => minorFill_eq_replay M r c init, hspec, ?_, ?_, ?_⟩
  · intro w hw
    have : (w.1, w.2.1) ∈ pairs (n - 1) (n - 1) := by
      rw [← hpos]
      exact List.mem_map_of_mem (fun w => (w.1, w.2.1)) hw
    exact mem_pairs.mp this
  · intro a b ha hb
    rw [hpos]
    have hcount : List.countP (fun q => decide (q = (a, b))) (pairs (n - 1) (n - 1)) = 1 :=
      List.count_eq_one_of_mem (nodup_pairs (n - 1) (n - 1))
        ((mem_pairs (p := (a, b))).mpr ⟨ha, hb⟩)
    rw [List.countP_eq_length_filter] at hcount
    exact hcount
  · rw [hspec, List.length_map, length_pairs]

/-- Witness for C20: `minorM(1, 1)` on the driver's matrix writes the four
cells of the 2 by 2 buffer once each; with `r = -1`, outside the range, the
same loop writes to row 2, outside that buffer. -/
theorem minorM_fill_in_bounds_witness :
    (driverMatrix.minorWrites 1 1).1 = [(0, 0, 1), (0, 1, 3), (1, 0, 1), (1, 1, 6)] ∧
    (2, 0, (1 : ℚ)) ∈ (driverMatrix.minorWrites (-1) 1).1 ∧
    (∀ w ∈ (driverMatrix.minorWrites ((1 : Nat) : Int) ((1 : Nat) : Int)).1,
      w.1 < 3 - 1 ∧ w.2.1 < 3 - 1) :=
  ⟨by decide!, by decide!,
    (minorM_fill_in_bounds 3 (by decide) driverMatrix rfl rfl 1 1 (by decide) (by decide)).2.2.1⟩

end Cpp
